import Mathlib

/-!
Verification of the pixel-algorithm layer of the a-frame-project repository:
the brightness-driven row pixel sorter with HSL recoloring (`pixel-sorter`
component, `sortRow` / `tick` in `src/main.js`) and the ASCII mosaic renderer
(`ascii-shader` component in `src/main.js`).

JavaScript numbers are modelled as exact rationals (`ℚ`); 8-bit channel
samples as `ℕ`.  The stateful row loop of `sortRow` is embedded as a
fuel-indexed recursion returning `Option` (`none` = the loop did not
terminate within the given fuel), and the per-run `Date.now()` sampling is
modelled by an explicit clock stream `ℕ → ℚ` indexed by the number of runs
processed so far.
-/

/-- One RGBA8 pixel sample, as read from the frame buffer. -/
structure Pixel where
  r : ℕ
  g : ℕ
  b : ℕ
  a : ℕ
deriving DecidableEq, Repr

/-- `brightness = (r+g+b)/3`, the unweighted channel mean used throughout
`sortRow` and the ASCII shader. -/
def brightness (p : Pixel) : ℚ :=
  ((p.r : ℚ) + p.g + p.b) / 3

/-- The run-membership predicate of `sortRow`: `alpha > 10` and
`brightness > threshold * 255` (the code scales the configured threshold by
255 once at the top of `sortRow`). -/
def qualifies (threshold : ℚ) (p : Pixel) : Bool :=
  decide (10 < p.a) && decide (threshold * 255 < brightness p)

/-- Comparator order used by `pixels.sort((a, b) => a.brightness - b.brightness)`. -/
def brLE (p q : Pixel) : Prop :=
  brightness p ≤ brightness q

instance : DecidableRel brLE := fun _ _ => inferInstanceAs (Decidable (_ ≤ _))

instance : IsTotal Pixel brLE := ⟨fun p q => le_total (brightness p) (brightness q)⟩

instance : IsTrans Pixel brLE := ⟨fun _ _ _ h h' => le_trans h h'⟩

/-- The run sorter: JavaScript `Array.prototype.sort` with comparator
`a.brightness - b.brightness` is (per the language specification) a stable
ascending sort by brightness, which is computed extensionally by insertion
sort on the reflexive brightness order. -/
def sortRun (ps : List Pixel) : List Pixel :=
  List.insertionSort brLE ps

/-- JavaScript `x % 1` (truncated remainder by one): `x - trunc x`. -/
def jsMod1 (x : ℚ) : ℚ :=
  if 0 ≤ x then Int.fract x else x - ⌈x⌉

/-- HSL triple, each component a rational (the code keeps them in `[0,1]`). -/
structure HSL where
  h : ℚ
  s : ℚ
  l : ℚ
deriving DecidableEq, Repr

/-- RGB triple of unit-scaled rational channel values. -/
structure RGBv where
  r : ℚ
  g : ℚ
  b : ℚ
deriving DecidableEq, Repr

/-- The forward RGB→HSL conversion inlined in `sortRow` (inputs are the
channel values already divided by 255). -/
def rgbToHsl (r g b : ℚ) : HSL :=
  let mx := max r (max g b)
  let mn := min r (min g b)
  let l := (mx + mn) / 2
  if mx = mn then ⟨0, 0, l⟩
  else
    let d := mx - mn
    let s := if 1 / 2 < l then d / (2 - mx - mn) else d / (mx + mn)
    let h :=
      if mx = r then (g - b) / d + (if g < b then 6 else 0)
      else if mx = g then (b - r) / d + 2
      else (r - g) / d + 4
    ⟨h / 6, s, l⟩

/-- The `hue2rgb` helper closure of `sortRow`. -/
def hue2rgb (p q t : ℚ) : ℚ :=
  let t1 := if t < 0 then t + 1 else t
  let t2 := if 1 < t1 then t1 - 1 else t1
  if t2 < 1 / 6 then p + (q - p) * 6 * t2
  else if t2 < 1 / 2 then q
  else if t2 < 2 / 3 then p + (q - p) * (2 / 3 - t2) * 6
  else p

/-- The inverse HSL→RGB conversion inlined in `sortRow`. -/
def hslToRgb (h s l : ℚ) : RGBv :=
  if s = 0 then ⟨l, l, l⟩
  else
    let q := if l < 1 / 2 then l * (1 + s) else l + s - l * s
    let p := 2 * l - q
    ⟨hue2rgb p q (h + 1 / 3), hue2rgb p q h, hue2rgb p q (h - 1 / 3)⟩

/-- The write-back body of `sortRow` for one output slot: hue-shift the
sorted pixel's color through an HSL round trip and floor the result back to
8-bit channels, keeping the sorted pixel's alpha.  `cap` is the configured
`sortLength`, `n` the run length `endX - startX`, `idx` the slot's offset
inside the run, `time` the `Date.now() * 0.001` sample for this run. -/
def recolorPixel (cap n idx : ℕ) (time : ℚ) (pix : Pixel) : Pixel :=
  let positionInSort : ℚ := (idx : ℚ) / n
  let sortIntensity : ℚ := (n : ℚ) / cap
  let hueShift := jsMod1 (positionInSort * sortIntensity * (1 / 2) + time * (1 / 5))
  let hsl := rgbToHsl ((pix.r : ℚ) / 255) ((pix.g : ℚ) / 255) ((pix.b : ℚ) / 255)
  let h := jsMod1 (hsl.h + hueShift)
  let s := min 1 (hsl.s + 1 / 2)
  let rgb := hslToRgb h s hsl.l
  ⟨(⌊rgb.r * 255⌋).toNat, (⌊rgb.g * 255⌋).toNat, (⌊rgb.b * 255⌋).toNat, pix.a⟩

/-- One detected run's processing: stable-sort the run's pixels by brightness
and recolor each output slot, all slots sharing the single `time` sample taken
for this run. -/
def processRun (cap : ℕ) (time : ℚ) (ps : List Pixel) : List Pixel :=
  (sortRun ps).enum.map fun ip => recolorPixel cap ps.length ip.1 time ip.2

/-- The `endX` scan of `sortRow`: starting at the current pixel, the number
of consecutive qualifying pixels taken, capped by the remaining `sortLength`
budget (first argument). -/
def capRunLen (t : ℚ) : ℕ → List Pixel → ℕ
  | 0, _ => 0
  | _, [] => 0
  | capLeft + 1, p :: ps => if qualifies t p then capRunLen t capLeft ps + 1 else 0

/-- The outer `while (x < width)` loop of `sortRow`, as a fuel-indexed
recursion over the remainder of the row.  `k` counts the runs processed so
far in this tick (each run samples `clock k` for its `Date.now()` read);
`none` means the loop did not finish within `fuel` iterations. -/
def sortRowAux (t : ℚ) (cap : ℕ) (clock : ℕ → ℚ) :
    ℕ → ℕ → List Pixel → Option (List Pixel × ℕ)
  | 0, _, _ => none
  | _ + 1, k, [] => some ([], k)
  | fuel + 1, k, p :: ps =>
    if qualifies t p then
      let n := capRunLen t cap (p :: ps)
      let out := processRun cap (clock k) ((p :: ps).take n)
      match sortRowAux t cap clock fuel (k + 1) ((p :: ps).drop n) with
      | none => none
      | some (rest, k') => some (out ++ rest, k')
    else
      match sortRowAux t cap clock fuel k ps with
      | none => none
      | some (rest, k') => some (p :: rest, k')

/-- `sortRow` on one row, with enough fuel for any terminating execution. -/
def sortRow (t : ℚ) (cap : ℕ) (clock : ℕ → ℚ) (k : ℕ) (row : List Pixel) :
    Option (List Pixel × ℕ) :=
  sortRowAux t cap clock (row.length + 1) k row

/-- The run intervals `(startX, endX - startX)` detected by `sortRow`'s scan,
mirroring the same loop as `sortRowAux`; `i` is the absolute index of the
head of the remaining list. -/
def rowRunsAux (t : ℚ) (cap : ℕ) : ℕ → ℕ → List Pixel → Option (List (ℕ × ℕ))
  | 0, _, _ => none
  | _ + 1, _, [] => some []
  | fuel + 1, i, p :: ps =>
    if qualifies t p then
      let n := capRunLen t cap (p :: ps)
      match rowRunsAux t cap fuel (i + n) ((p :: ps).drop n) with
      | none => none
      | some rs => some ((i, n) :: rs)
    else
      rowRunsAux t cap fuel (i + 1) ps

/-- The runs detected by `sortRow` on a whole row. -/
def rowRuns (t : ℚ) (cap : ℕ) (row : List Pixel) : Option (List (ℕ × ℕ)) :=
  rowRunsAux t cap (row.length + 1) 0 row

/-- The `tick` of the `pixel-sorter` component: process every row in order,
threading the run counter (and hence the clock) through the whole frame. -/
def applyFrame (t : ℚ) (cap : ℕ) (clock : ℕ → ℚ) :
    List (List Pixel) → ℕ → Option (List (List Pixel) × ℕ)
  | [], k => some ([], k)
  | row :: rows, k =>
    match sortRow t cap clock k row with
    | none => none
    | some (out, k') =>
      match applyFrame t cap clock rows k' with
      | none => none
      | some (outs, k'') => some (out :: outs, k'')

/-- Modelled from the spec: length of the maximal qualifying prefix. -/
def qualLen (t : ℚ) : List Pixel → ℕ
  | [] => 0
  | p :: ps => if qualifies t p then qualLen t ps + 1 else 0

/-- Modelled from the spec: split one maximal interval `(s, len)` into
left-to-right pieces of at most `cap` pixels (fuel-indexed; `len` itself is
enough fuel). -/
def chunksF (cap : ℕ) : ℕ → ℕ → ℕ → List (ℕ × ℕ)
  | 0, _, _ => []
  | _ + 1, _, 0 => []
  | f + 1, s, len + 1 =>
    if len + 1 ≤ cap then [(s, len + 1)]
    else (s, cap) :: chunksF cap f (s + cap) (len + 1 - cap)

/-- Modelled from the spec: split an interval into pieces of at most `cap`. -/
def chunks (cap s len : ℕ) : List (ℕ × ℕ) :=
  chunksF cap len s len

/-- Modelled from the spec: the maximal intervals of consecutive pixels
satisfying the run predicate, as `(start, length)` pairs, scanning left to
right from absolute index `i`. -/
def specIntervalsAux (t : ℚ) : ℕ → ℕ → List Pixel → List (ℕ × ℕ)
  | 0, _, _ => []
  | _ + 1, _, [] => []
  | f + 1, i, p :: ps =>
    if qualifies t p then
      let n := qualLen t (p :: ps)
      (i, n) :: specIntervalsAux t f (i + n) ((p :: ps).drop n)
    else specIntervalsAux t f (i + 1) ps

/-- Modelled from the spec: maximal qualifying intervals of a row. -/
def specIntervals (t : ℚ) (i : ℕ) (row : List Pixel) : List (ℕ × ℕ) :=
  specIntervalsAux t (row.length + 1) i row

/-- Modelled from the spec: the maximal intervals, each split left-to-right
into pieces of at most `cap` pixels. -/
def specRuns (t : ℚ) (cap : ℕ) (i : ℕ) (row : List Pixel) : List (ℕ × ℕ) :=
  (specIntervals t i row).flatMap fun sn => chunks cap sn.1 sn.2

/-- The glyph index of the `ascii-shader` tick:
`Math.floor((brightness / 255) * (chars.length - 1))`. -/
def asciiCharIndex (chars : List Char) (bq : ℚ) : ℤ :=
  ⌊bq / 255 * ((chars.length : ℚ) - 1)⌋

/-- The glyph lookup `chars[charIndex]` of the `ascii-shader` tick; a
JavaScript string index outside the string (negative included) yields
`undefined`, modelled as `none`.  No emptiness check or fallback exists in
the code. -/
def asciiGlyph (chars : List Char) (p : Pixel) : Option Char :=
  let idx := asciiCharIndex chars (brightness p)
  if idx < 0 then none else chars.get? idx.toNat

/-- Per-channel tint of the `ascii-shader` tick:
`Math.floor(c * 0.7 + avgColor * 0.3)`. -/
def tintChannel (c : ℕ) (avg : ℚ) : ℤ :=
  ⌊(c : ℚ) * (7 / 10) + avg * (3 / 10)⌋

/-- Per-channel background dimming of the `ascii-shader` tick:
`Math.floor(tint * 0.4)`. -/
def dimChannel (tc : ℤ) : ℤ :=
  ⌊(tc : ℚ) * (2 / 5)⌋

/-- A 2D-canvas drawing command issued by the `ascii-shader` tick. -/
inductive AsciiOp where
  | clear (color : ℕ × ℕ × ℕ)
  | text (glyph : Option Char) (color : ℤ × ℤ × ℤ) (dx dy : ℕ)
deriving DecidableEq, Repr

/-- The fixed background color `#0a0a1a` the ASCII canvas is cleared to. -/
def asciiBackground : ℕ × ℕ × ℕ := (10, 10, 26)

/-- The drawing commands the `ascii-shader` tick issues for one sampled cell:
a shadowed foreground draw when `alpha > 10`, otherwise a single dimmed
draw. -/
def asciiCellOps (chars : List Char) (p : Pixel) : List AsciiOp :=
  let ch := asciiGlyph chars p
  let avg := brightness p
  let tR := tintChannel p.r avg
  let tG := tintChannel p.g avg
  let tB := tintChannel p.b avg
  if 10 < p.a then
    [AsciiOp.text ch (0, 0, 0) 1 1, AsciiOp.text ch (tR, tG, tB) 0 0]
  else
    [AsciiOp.text ch (dimChannel tR, dimChannel tG, dimChannel tB) 0 0]

/-- The full drawing-command sequence of one `ascii-shader` tick: clear to
the fixed background color, then every cell's commands in scan order. -/
def asciiFrameOps (chars : List Char) (cells : List Pixel) : List AsciiOp :=
  AsciiOp.clear asciiBackground :: cells.flatMap (asciiCellOps chars)

/-- The default `characters` charset `" .:-=+*#%@"` of the `ascii-shader`
schema. -/
def defaultCharset : List Char :=
  [' ', '.', ':', '-', '=', '+', '*', '#', '%', '@']

/-- The RGB→HSL→RGB round trip of `sortRow`'s conversions with no hue,
saturation or lightness modification, ending with the code's
floor-to-8-bit step. -/
def roundTrip (r g b : ℕ) : ℕ × ℕ × ℕ :=
  let hsl := rgbToHsl ((r : ℚ) / 255) ((g : ℚ) / 255) ((b : ℚ) / 255)
  let rgb := hslToRgb hsl.h hsl.s hsl.l
  ((⌊rgb.r * 255⌋).toNat, (⌊rgb.g * 255⌋).toNat, (⌊rgb.b * 255⌋).toNat)

/-- Modelled from the spec: the Recolorer contract of §4.3, written with the
mathematical `mod 1` (`Int.fract`):
`hueShift = (idx/runLen · runLen/sortLength · 0.5 + time · 0.2) mod 1`,
`h' = (h + hueShift) mod 1`, `s' = min 1 (s + 0.5)`, `l' = l`, each output
channel `⌊c' · 255⌋`, alpha preserved. -/
def recolorSpec (cap n idx : ℕ) (time : ℚ) (pix : Pixel) : Pixel :=
  let hueShift := Int.fract ((idx : ℚ) / n * ((n : ℚ) / cap) * (1 / 2) + time * (1 / 5))
  let hsl := rgbToHsl ((pix.r : ℚ) / 255) ((pix.g : ℚ) / 255) ((pix.b : ℚ) / 255)
  let rgb := hslToRgb (Int.fract (hsl.h + hueShift)) (min 1 (hsl.s + 1 / 2)) hsl.l
  ⟨(⌊rgb.r * 255⌋).toNat, (⌊rgb.g * 255⌋).toNat, (⌊rgb.b * 255⌋).toNat, pix.a⟩

/-- `orderedInsert` on the brightness order inserts the new element in front of
all elements of equal brightness, so filtering by any fixed brightness value
commutes with the insertion. -/
lemma filter_orderedInsert (c : ℚ) (p : Pixel) (l : List Pixel) :
    (List.orderedInsert brLE p l).filter (fun x => decide (brightness x = c)) =
      if brightness p = c then
        p :: l.filter (fun x => decide (brightness x = c))
      else l.filter (fun x => decide (brightness x = c)) := by
  induction l with
  | nil =>
    by_cases h : brightness p = c <;> simp [List.orderedInsert, List.filter, h]
  | cons q l ih =>
    by_cases hle : brLE p q
    · have step : List.orderedInsert brLE p (q :: l) = p :: q :: l := by
        simp [List.orderedInsert, hle]
      rw [step]
      by_cases h : brightness p = c <;> simp [List.filter, h]
    · have hqp : brightness q < brightness p := lt_of_not_le hle
      have step : List.orderedInsert brLE p (q :: l) =
          q :: List.orderedInsert brLE p l := by
        simp [List.orderedInsert, hle]
      rw [step]
      by_cases h : brightness p = c
      · have hq : ¬ brightness q = c := by
          intro hqc; rw [hqc, ← h] at hqp; exact lt_irrefl _ hqp
        simp [List.filter, h, hq, ih]
      · by_cases hq : brightness q = c <;> simp [List.filter, h, hq, ih]

/-- Stability of the run sorter: for every brightness value, the sorted list
restricted to pixels of that brightness is the input list restricted to
pixels of that brightness, in the original order. -/
lemma filter_sortRun (c : ℚ) (ps : List Pixel) :
    (sortRun ps).filter (fun x => decide (brightness x = c)) =
      ps.filter (fun x => decide (brightness x = c)) := by
  induction ps with
  | nil => rfl
  | cons p l ih =>
    unfold sortRun at *
    simp only [List.insertionSort]
    rw [filter_orderedInsert]
    by_cases h : brightness p = c <;> simp [List.filter, h, ih]

lemma brightness_nonneg (p : Pixel) : 0 ≤ brightness p := by
  unfold brightness; positivity

lemma brightness_le_255 (p : Pixel) (hr : p.r ≤ 255) (hg : p.g ≤ 255)
    (hb : p.b ≤ 255) : brightness p ≤ 255 := by
  unfold brightness
  rw [div_le_iff₀ (by norm_num : (0 : ℚ) < 3)]
  have hr' : (p.r : ℚ) ≤ 255 := by exact_mod_cast hr
  have hg' : (p.g : ℚ) ≤ 255 := by exact_mod_cast hg
  have hb' : (p.b : ℚ) ≤ 255 := by exact_mod_cast hb
  linarith

/-- For a non-empty charset and an in-range cell brightness the glyph index is
in bounds. -/
lemma asciiCharIndex_bounds (chars : List Char) (p : Pixel)
    (hne : chars ≠ []) (hr : p.r ≤ 255) (hg : p.g ≤ 255) (hb : p.b ≤ 255) :
    0 ≤ asciiCharIndex chars (brightness p) ∧
      (asciiCharIndex chars (brightness p)).toNat < chars.length := by
  have hlen : 1 ≤ chars.length := List.length_pos.mpr hne
  have hb0 : 0 ≤ brightness p := brightness_nonneg p
  have hb255 : brightness p ≤ 255 := brightness_le_255 p hr hg hb
  have hq0 : (0 : ℚ) ≤ brightness p / 255 * ((chars.length : ℚ) - 1) := by
    have h1 : (0 : ℚ) ≤ brightness p / 255 := by positivity
    have h2 : (0 : ℚ) ≤ (chars.length : ℚ) - 1 := by
      have : (1 : ℚ) ≤ (chars.length : ℚ) := by exact_mod_cast hlen
      linarith
    exact mul_nonneg h1 h2
  have hge : 0 ≤ asciiCharIndex chars (brightness p) := by
    exact Int.floor_nonneg.mpr hq0
  refine ⟨hge, ?_⟩
  have hqle : brightness p / 255 * ((chars.length : ℚ) - 1) ≤ (chars.length : ℚ) - 1 := by
    have h1 : brightness p / 255 ≤ 1 := by
      rw [div_le_one (by norm_num : (0 : ℚ) < 255)]; exact hb255
    have h2 : (0 : ℚ) ≤ (chars.length : ℚ) - 1 := by
      have : (1 : ℚ) ≤ (chars.length : ℚ) := by exact_mod_cast hlen
      linarith
    calc brightness p / 255 * ((chars.length : ℚ) - 1)
        ≤ 1 * ((chars.length : ℚ) - 1) := by
          exact mul_le_mul_of_nonneg_right h1 h2
      _ = (chars.length : ℚ) - 1 := one_mul _
  have hcast : ((chars.length : ℚ) - 1) = (((chars.length : ℤ) - 1 : ℤ) : ℚ) := by
    push_cast; ring
  have hfle : asciiCharIndex chars (brightness p) ≤ (chars.length : ℤ) - 1 := by
    calc asciiCharIndex chars (brightness p)
        ≤ ⌊(((chars.length : ℤ) - 1 : ℤ) : ℚ)⌋ := Int.floor_mono (hcast ▸ hqle)
      _ = (chars.length : ℤ) - 1 := Int.floor_intCast _
  omega

lemma hue2rgb_eval (p q t : ℚ) (h0 : 0 ≤ t) (h1 : t ≤ 1) :
    hue2rgb p q t =
      if t < 1 / 6 then p + (q - p) * 6 * t
      else if t < 1 / 2 then q
      else if t < 2 / 3 then p + (q - p) * (2 / 3 - t) * 6
      else p := by
  simp only [hue2rgb]
  rw [if_neg (not_lt.mpr h0), if_neg (not_lt.mpr h1)]

lemma hue2rgb_wrap_neg (p q t : ℚ) (hm : -1 ≤ t) (h : t < 0) :
    hue2rgb p q t = hue2rgb p q (t + 1) := by
  simp only [hue2rgb]
  rw [if_pos h, if_neg (not_lt.mpr (by linarith : (0 : ℚ) ≤ t + 1)),
    if_neg (not_lt.mpr (by linarith : t + 1 ≤ 1))]

lemma hue2rgb_wrap_gt (p q t : ℚ) (h : 1 < t) (h2 : t ≤ 2) :
    hue2rgb p q t = hue2rgb p q (t - 1) := by
  simp only [hue2rgb]
  rw [if_neg (not_lt.mpr (by linarith : (0 : ℚ) ≤ t)),
    if_neg (not_lt.mpr (by linarith : (0 : ℚ) ≤ t - 1)), if_pos h,
    if_neg (not_lt.mpr (by linarith : t - 1 ≤ 1))]

lemma hue2rgb_bounds_core (p q t : ℚ) (hp : 0 ≤ p) (hpq : p ≤ q) (hq : q ≤ 1)
    (h0 : 0 ≤ t) (h1 : t ≤ 1) : 0 ≤ hue2rgb p q t ∧ hue2rgb p q t ≤ 1 := by
  rw [hue2rgb_eval p q t h0 h1]
  by_cases c1 : t < 1 / 6
  · rw [if_pos c1]
    constructor <;> nlinarith [mul_nonneg (by linarith : (0 : ℚ) ≤ q - p) h0,
      mul_nonneg (by linarith : (0 : ℚ) ≤ q - p) (by linarith : (0 : ℚ) ≤ 1 - 6 * t)]
  · rw [if_neg c1]
    by_cases c2 : t < 1 / 2
    · rw [if_pos c2]; exact ⟨by linarith, hq⟩
    · rw [if_neg c2]
      by_cases c3 : t < 2 / 3
      · rw [if_pos c3]
        constructor <;>
          nlinarith [mul_nonneg (by linarith : (0 : ℚ) ≤ q - p)
              (by linarith : (0 : ℚ) ≤ 2 / 3 - t),
            mul_nonneg (by linarith : (0 : ℚ) ≤ q - p)
              (by linarith : (0 : ℚ) ≤ 1 - (2 / 3 - t) * 6)]
      · rw [if_neg c3]; exact ⟨hp, by linarith⟩

lemma hue2rgb_bounds (p q t : ℚ) (hp : 0 ≤ p) (hpq : p ≤ q) (hq : q ≤ 1)
    (ht1 : -1 ≤ t) (ht2 : t ≤ 2) :
    0 ≤ hue2rgb p q t ∧ hue2rgb p q t ≤ 1 := by
  by_cases hneg : t < 0
  · rw [hue2rgb_wrap_neg p q t ht1 hneg]
    exact hue2rgb_bounds_core p q (t + 1) hp hpq hq (by linarith) (by linarith)
  · by_cases hgt : 1 < t
    · rw [hue2rgb_wrap_gt p q t hgt ht2]
      exact hue2rgb_bounds_core p q (t - 1) hp hpq hq (by linarith) (by linarith)
    · exact hue2rgb_bounds_core p q t hp hpq hq (by linarith) (by linarith)

lemma rgbToHsl_l_eq (r g b : ℚ) :
    (rgbToHsl r g b).l = (max r (max g b) + min r (min g b)) / 2 := by
  simp only [rgbToHsl]
  by_cases h : max r (max g b) = min r (min g b)
  · rw [if_pos h]
  · rw [if_neg h]

lemma rgbToHsl_s_of_ne (r g b : ℚ) (hne : max r (max g b) ≠ min r (min g b)) :
    (rgbToHsl r g b).s =
      if 1 / 2 < (max r (max g b) + min r (min g b)) / 2 then
        (max r (max g b) - min r (min g b)) / (2 - max r (max g b) - min r (min g b))
      else (max r (max g b) - min r (min g b)) / (max r (max g b) + min r (min g b)) := by
  simp only [rgbToHsl]
  rw [if_neg hne]

lemma rgbToHsl_h_of_ne (r g b : ℚ) (hne : max r (max g b) ≠ min r (min g b)) :
    (rgbToHsl r g b).h =
      (if max r (max g b) = r then
          (g - b) / (max r (max g b) - min r (min g b)) + (if g < b then 6 else 0)
        else if max r (max g b) = g then
          (b - r) / (max r (max g b) - min r (min g b)) + 2
        else (r - g) / (max r (max g b) - min r (min g b)) + 4) / 6 := by
  simp only [rgbToHsl]
  rw [if_neg hne]

/-- Backward conversion reconstructs `q = mx` and `p = mn` whenever `s` and
`l` come from the forward conversion of a non-degenerate color. -/
lemma hslToRgb_reconstruct (mx mn H S L : ℚ) (hmn0 : 0 ≤ mn) (hlt : mn < mx)
    (hmx1 : mx ≤ 1) (hL : L = (mx + mn) / 2)
    (hS : S = if 1 / 2 < (mx + mn) / 2 then (mx - mn) / (2 - mx - mn)
      else (mx - mn) / (mx + mn)) :
    hslToRgb H S L =
      ⟨hue2rgb mn mx (H + 1 / 3), hue2rgb mn mx H, hue2rgb mn mx (H - 1 / 3)⟩ := by
  subst hS hL
  have hd : 0 < mx - mn := by linarith
  have hsum0 : 0 < mx + mn := by linarith
  have hsum2 : mx + mn < 2 := by linarith
  by_cases hhalf : 1 / 2 < (mx + mn) / 2
  · rw [if_pos hhalf]
    have hden : 0 < 2 - mx - mn := by linarith
    have hSpos : 0 < (mx - mn) / (2 - mx - mn) := div_pos hd hden
    simp only [hslToRgb]
    rw [if_neg (ne_of_gt hSpos), if_neg (not_lt.mpr (by linarith : 1 / 2 ≤ (mx + mn) / 2))]
    have hQ : (mx + mn) / 2 + (mx - mn) / (2 - mx - mn) -
        (mx + mn) / 2 * ((mx - mn) / (2 - mx - mn)) = mx := by
      field_simp
      ring
    rw [hQ]
    have hP : 2 * ((mx + mn) / 2) - mx = mn := by ring
    rw [hP]
  · rw [if_neg hhalf]
    have hSpos : 0 < (mx - mn) / (mx + mn) := div_pos hd hsum0
    simp only [hslToRgb]
    rw [if_neg (ne_of_gt hSpos)]
    by_cases hl2 : (mx + mn) / 2 < 1 / 2
    · rw [if_pos hl2]
      have hQ : (mx + mn) / 2 * (1 + (mx - mn) / (mx + mn)) = mx := by
        field_simp
        ring
      rw [hQ]
      have hP : 2 * ((mx + mn) / 2) - mx = mn := by ring
      rw [hP]
    · rw [if_neg hl2]
      have h1 : mx + mn = 1 := by
        have ha := not_lt.mp hhalf
        have hb := not_lt.mp hl2
        linarith
      have hQ : (mx + mn) / 2 + (mx - mn) / (mx + mn) -
          (mx + mn) / 2 * ((mx - mn) / (mx + mn)) = mx := by
        rw [h1]
        have hmn : mn = 1 - mx := by linarith
        rw [hmn]
        ring
      rw [hQ]
      have hP : 2 * ((mx + mn) / 2) - mx = mn := by ring
      rw [hP]

set_option maxHeartbeats 1600000 in
/-- The exact round-trip identity: `sortRow`'s HSL conversions are mutually
inverse on unit-scaled channels (exact rational arithmetic). -/
lemma hsl_roundTrip_core (r g b : ℚ) (hr0 : 0 ≤ r) (hr1 : r ≤ 1) (hg0 : 0 ≤ g)
    (hg1 : g ≤ 1) (hb0 : 0 ≤ b) (hb1 : b ≤ 1) :
    hslToRgb (rgbToHsl r g b).h (rgbToHsl r g b).s (rgbToHsl r g b).l = ⟨r, g, b⟩ := by
  have hmx_r : r ≤ max r (max g b) := le_max_left _ _
  have hmx_g : g ≤ max r (max g b) := le_trans (le_max_left _ _) (le_max_right _ _)
  have hmx_b : b ≤ max r (max g b) := le_trans (le_max_right _ _) (le_max_right _ _)
  have hmn_r : min r (min g b) ≤ r := min_le_left _ _
  have hmn_g : min r (min g b) ≤ g := le_trans (min_le_right _ _) (min_le_left _ _)
  have hmn_b : min r (min g b) ≤ b := le_trans (min_le_right _ _) (min_le_right _ _)
  by_cases heq : max r (max g b) = min r (min g b)
  · have hgr : g = r := by
      have h1 : g ≤ min r (min g b) := heq ▸ hmx_g
      have h2 : r ≤ min r (min g b) := heq ▸ hmx_r
      linarith
    have hbr : b = r := by
      have h1 : b ≤ min r (min g b) := heq ▸ hmx_b
      have h2 : r ≤ min r (min g b) := heq ▸ hmx_r
      linarith
    have hs0 : (rgbToHsl r g b).s = 0 := by
      simp only [rgbToHsl]
      rw [if_pos heq]
    have hlr : (rgbToHsl r g b).l = r := by
      rw [rgbToHsl_l_eq, hgr, hbr]
      simp only [max_self, min_self]
      ring
    rw [hs0]
    simp only [hslToRgb, if_true]
    rw [hlr, hgr, hbr]
  · have hmnmx : min r (min g b) < max r (max g b) :=
      lt_of_le_of_ne (le_trans hmn_r hmx_r) (Ne.symm heq)
    by_cases hxr : max r (max g b) = r
    · -- max channel is r
      have hbr : b ≤ r := hxr ▸ hmx_b
      have hgr : g ≤ r := hxr ▸ hmx_g
      by_cases hgb : g < b
      · -- min channel is g
        have hmne : min r (min g b) = g := by
          rw [min_eq_left hgb.le, min_eq_right (by linarith : g ≤ r)]
        have hd : 0 < r - g := by
          rw [hxr, hmne] at hmnmx; linarith
        have hL := rgbToHsl_l_eq r g b
        rw [hxr, hmne] at hL
        have hS := rgbToHsl_s_of_ne r g b heq
        rw [hxr, hmne] at hS
        have hH := rgbToHsl_h_of_ne r g b heq
        rw [if_pos hxr, if_pos hgb, hxr, hmne] at hH
        rw [hslToRgb_reconstruct r g (rgbToHsl r g b).h _ _ hg0 (by linarith) hr1 hL hS,
          hH, RGBv.mk.injEq]
        set v := (g - b) / (r - g) with hv
        have hv0 : v < 0 := div_neg_of_neg_of_pos (by linarith) hd
        have hv1 : -1 ≤ v := by
          rw [hv, le_div_iff₀ hd]; linarith
        refine ⟨?_, ?_, ?_⟩
        · rw [hue2rgb_wrap_gt g r ((v + 6) / 6 + 1 / 3) (by linarith) (by linarith),
            hue2rgb_eval g r ((v + 6) / 6 + 1 / 3 - 1) (by linarith) (by linarith),
            if_neg (by push_neg; linarith), if_pos (by linarith)]
        · rw [hue2rgb_eval g r ((v + 6) / 6) (by linarith) (by linarith),
            if_neg (by push_neg; linarith), if_neg (by push_neg; linarith),
            if_neg (by push_neg; linarith)]
        · rw [hue2rgb_eval g r ((v + 6) / 6 - 1 / 3) (by linarith) (by linarith),
            if_neg (by push_neg; linarith), if_neg (by push_neg; linarith),
            if_pos (by linarith), hv]
          field_simp
          ring
      · -- min channel is b
        have hbg : b ≤ g := le_of_not_lt hgb
        have hmne : min r (min g b) = b := by
          rw [min_eq_right hbg, min_eq_right hbr]
        have hd : 0 < r - b := by
          rw [hxr, hmne] at hmnmx; linarith
        have hL := rgbToHsl_l_eq r g b
        rw [hxr, hmne] at hL
        have hS := rgbToHsl_s_of_ne r g b heq
        rw [hxr, hmne] at hS
        have hH := rgbToHsl_h_of_ne r g b heq
        rw [if_pos hxr, if_neg hgb, add_zero, hxr, hmne] at hH
        rw [hslToRgb_reconstruct r b (rgbToHsl r g b).h _ _ hb0 (by linarith) hr1 hL hS,
          hH, RGBv.mk.injEq]
        set u := (g - b) / (r - b) with hu
        have hu0 : 0 ≤ u := div_nonneg (by linarith) hd.le
        have hu1 : u ≤ 1 := by
          rw [hu, div_le_one hd]; linarith
        refine ⟨?_, ?_, ?_⟩
        · by_cases hlt : u < 1
          · rw [hue2rgb_eval b r (u / 6 + 1 / 3) (by linarith) (by linarith),
              if_neg (by push_neg; linarith), if_pos (by linarith)]
          · have hueq : u = 1 := le_antisymm hu1 (not_lt.mp hlt)
            rw [hueq, hue2rgb_eval b r ((1 : ℚ) / 6 + 1 / 3) (by norm_num) (by norm_num),
              if_neg (by norm_num), if_neg (by norm_num), if_pos (by norm_num)]
            ring
        · by_cases hlt : u < 1
          · rw [hue2rgb_eval b r (u / 6) (by linarith) (by linarith),
              if_pos (by linarith)]
            rw [hu]
            field_simp
            try ring
          · have hueq : u = 1 := le_antisymm hu1 (not_lt.mp hlt)
            have hgeq : g = r := by
              have h2 : g - b = r - b := (div_eq_one_iff_eq hd.ne').mp (hu ▸ hueq)
              linarith
            rw [hueq, hgeq, hue2rgb_eval b r ((1 : ℚ) / 6) (by norm_num) (by norm_num),
              if_neg (by norm_num), if_pos (by norm_num)]
        · rw [hue2rgb_wrap_neg b r (u / 6 - 1 / 3) (by linarith) (by linarith),
            hue2rgb_eval b r (u / 6 - 1 / 3 + 1) (by linarith) (by linarith),
            if_neg (by push_neg; linarith), if_neg (by push_neg; linarith),
            if_neg (by push_neg; linarith)]
    · by_cases hxg : max r (max g b) = g
      · -- max channel is g
        have hbg : b ≤ g := hxg ▸ hmx_b
        have hrg : r ≤ g := hxg ▸ hmx_r
        by_cases hrb : r ≤ b
        · -- min channel is r
          have hmne : min r (min g b) = r := by
            rw [min_eq_right hbg, min_eq_left hrb]
          have hd : 0 < g - r := by
            rw [hxg, hmne] at hmnmx; linarith
          have hL := rgbToHsl_l_eq r g b
          rw [hxg, hmne] at hL
          have hS := rgbToHsl_s_of_ne r g b heq
          rw [hxg, hmne] at hS
          have hH := rgbToHsl_h_of_ne r g b heq
          rw [if_neg hxr, if_pos hxg, hxg, hmne] at hH
          rw [hslToRgb_reconstruct g r (rgbToHsl r g b).h _ _ hr0 (by linarith) hg1 hL hS,
            hH, RGBv.mk.injEq]
          set u := (b - r) / (g - r) with hu
          have hu0 : 0 ≤ u := div_nonneg (by linarith) hd.le
          have hu1 : u ≤ 1 := by
            rw [hu, div_le_one hd]; linarith
          refine ⟨?_, ?_, ?_⟩
          · rw [hue2rgb_eval r g ((u + 2) / 6 + 1 / 3) (by linarith) (by linarith),
              if_neg (by push_neg; linarith), if_neg (by push_neg; linarith),
              if_neg (by push_neg; linarith)]
          · by_cases hlt : u < 1
            · rw [hue2rgb_eval r g ((u + 2) / 6) (by linarith) (by linarith),
                if_neg (by push_neg; linarith), if_pos (by linarith)]
            · have hueq : u = 1 := le_antisymm hu1 (not_lt.mp hlt)
              rw [hueq, hue2rgb_eval r g (((1 : ℚ) + 2) / 6) (by norm_num) (by norm_num),
                if_neg (by norm_num), if_neg (by norm_num), if_pos (by norm_num)]
              ring
          · by_cases hlt : u < 1
            · rw [hue2rgb_eval r g ((u + 2) / 6 - 1 / 3) (by linarith) (by linarith),
                if_pos (by linarith)]
              rw [hu]
              field_simp
              try ring
            · have hueq : u = 1 := le_antisymm hu1 (not_lt.mp hlt)
              have hbeq : b = g := by
                have h2 : b - r = g - r := (div_eq_one_iff_eq hd.ne').mp (hu ▸ hueq)
                linarith
              rw [hueq, hbeq, hue2rgb_eval r g (((1 : ℚ) + 2) / 6 - 1 / 3) (by norm_num)
                  (by norm_num),
                if_neg (by norm_num), if_pos (by norm_num)]
        · -- min channel is b
          have hbr : b < r := lt_of_not_le hrb
          have hmne : min r (min g b) = b := by
            rw [min_eq_right hbg, min_eq_right hbr.le]
          have hd : 0 < g - b := by
            rw [hxg, hmne] at hmnmx; linarith
          have hL := rgbToHsl_l_eq r g b
          rw [hxg, hmne] at hL
          have hS := rgbToHsl_s_of_ne r g b heq
          rw [hxg, hmne] at hS
          have hH := rgbToHsl_h_of_ne r g b heq
          rw [if_neg hxr, if_pos hxg, hxg, hmne] at hH
          rw [hslToRgb_reconstruct g b (rgbToHsl r g b).h _ _ hb0 (by linarith) hg1 hL hS,
            hH, RGBv.mk.injEq]
          set v := (b - r) / (g - b) with hv
          have hv0 : v < 0 := div_neg_of_neg_of_pos (by linarith) hd
          have hv1 : -1 ≤ v := by
            rw [hv, le_div_iff₀ hd]; linarith
          refine ⟨?_, ?_, ?_⟩
          · rw [hue2rgb_eval b g ((v + 2) / 6 + 1 / 3) (by linarith) (by linarith),
              if_neg (by push_neg; linarith), if_neg (by push_neg; linarith),
              if_pos (by linarith), hv]
            field_simp
            ring
          · rw [hue2rgb_eval b g ((v + 2) / 6) (by linarith) (by linarith),
              if_neg (by push_neg; linarith), if_pos (by linarith)]
          · rw [hue2rgb_wrap_neg b g ((v + 2) / 6 - 1 / 3) (by linarith) (by linarith),
              hue2rgb_eval b g ((v + 2) / 6 - 1 / 3 + 1) (by linarith) (by linarith),
              if_neg (by push_neg; linarith), if_neg (by push_neg; linarith),
              if_neg (by push_neg; linarith)]
      · -- max channel is b
        have hxb : max r (max g b) = b := by
          rcases max_choice r (max g b) with h | h
          · exact absurd h hxr
          · rcases max_choice g b with h2 | h2
            · exact absurd (h.trans h2) hxg
            · exact h.trans h2
        have hrb : r < b := lt_of_le_of_ne (hxb ▸ hmx_r) fun he => hxr (hxb.trans he.symm)
        have hgb : g < b := lt_of_le_of_ne (hxb ▸ hmx_g) fun he => hxg (hxb.trans he.symm)
        by_cases hgr : g ≤ r
        · -- min channel is g
          have hmne : min r (min g b) = g := by
            rw [min_eq_left hgb.le, min_eq_right hgr]
          have hd : 0 < b - g := by
            rw [hxb, hmne] at hmnmx; linarith
          have hL := rgbToHsl_l_eq r g b
          rw [hxb, hmne] at hL
          have hS := rgbToHsl_s_of_ne r g b heq
          rw [hxb, hmne] at hS
          have hH := rgbToHsl_h_of_ne r g b heq
          rw [if_neg hxr, if_neg hxg, hxb, hmne] at hH
          rw [hslToRgb_reconstruct b g (rgbToHsl r g b).h _ _ hg0 (by linarith) hb1 hL hS,
            hH, RGBv.mk.injEq]
          set u := (r - g) / (b - g) with hu
          have hu0 : 0 ≤ u := div_nonneg (by linarith) hd.le
          have hu1 : u < 1 := by
            rw [hu, div_lt_one hd]; linarith
          refine ⟨?_, ?_, ?_⟩
          · by_cases hpos : 0 < u
            · rw [hue2rgb_wrap_gt g b ((u + 4) / 6 + 1 / 3) (by linarith) (by linarith),
                hue2rgb_eval g b ((u + 4) / 6 + 1 / 3 - 1) (by linarith) (by linarith),
                if_pos (by linarith), hu]
              field_simp
              ring
            · have hueq : u = 0 := le_antisymm (not_lt.mp hpos) hu0
              have hreq : r = g := by
                have h2 : r - g = 0 := by
                  rcases div_eq_zero_iff.mp (hu ▸ hueq) with h3 | h3
                  · exact h3
                  · exact absurd h3 hd.ne'
                linarith
              rw [hueq, hreq, hue2rgb_eval g b (((0 : ℚ) + 4) / 6 + 1 / 3) (by norm_num)
                  (by norm_num),
                if_neg (by norm_num), if_neg (by norm_num), if_neg (by norm_num)]
          · rw [hue2rgb_eval g b ((u + 4) / 6) (by linarith) (by linarith),
              if_neg (by push_neg; linarith), if_neg (by push_neg; linarith),
              if_neg (by push_neg; linarith)]
          · rw [hue2rgb_eval g b ((u + 4) / 6 - 1 / 3) (by linarith) (by linarith),
              if_neg (by push_neg; linarith), if_pos (by linarith)]
        · -- min channel is r
          have hrg : r < g := lt_of_not_le hgr
          have hmne : min r (min g b) = r := by
            rw [min_eq_left hgb.le, min_eq_left hrg.le]
          have hd : 0 < b - r := by
            rw [hxb, hmne] at hmnmx; linarith
          have hL := rgbToHsl_l_eq r g b
          rw [hxb, hmne] at hL
          have hS := rgbToHsl_s_of_ne r g b heq
          rw [hxb, hmne] at hS
          have hH := rgbToHsl_h_of_ne r g b heq
          rw [if_neg hxr, if_neg hxg, hxb, hmne] at hH
          rw [hslToRgb_reconstruct b r (rgbToHsl r g b).h _ _ hr0 (by linarith) hb1 hL hS,
            hH, RGBv.mk.injEq]
          set v := (r - g) / (b - r) with hv
          have hv0 : v < 0 := div_neg_of_neg_of_pos (by linarith) hd
          have hv1 : -1 < v := by
            rw [hv, lt_div_iff₀ hd]; linarith
          refine ⟨?_, ?_, ?_⟩
          · rw [hue2rgb_eval r b ((v + 4) / 6 + 1 / 3) (by linarith) (by linarith),
              if_neg (by push_neg; linarith), if_neg (by push_neg; linarith),
              if_neg (by push_neg; linarith)]
          · rw [hue2rgb_eval r b ((v + 4) / 6) (by linarith) (by linarith),
              if_neg (by push_neg; linarith), if_neg (by push_neg; linarith),
              if_pos (by linarith), hv]
            field_simp
            ring
          · rw [hue2rgb_eval r b ((v + 4) / 6 - 1 / 3) (by linarith) (by linarith),
              if_neg (by push_neg; linarith), if_pos (by linarith)]

lemma rgbToHsl_l_bounds (r g b : ℚ) (hr0 : 0 ≤ r) (hr1 : r ≤ 1) (hg0 : 0 ≤ g)
    (hg1 : g ≤ 1) (hb0 : 0 ≤ b) (hb1 : b ≤ 1) :
    0 ≤ (rgbToHsl r g b).l ∧ (rgbToHsl r g b).l ≤ 1 := by
  rw [rgbToHsl_l_eq]
  have h1 : max r (max g b) ≤ 1 := max_le hr1 (max_le hg1 hb1)
  have h2 : 0 ≤ min r (min g b) := le_min hr0 (le_min hg0 hb0)
  have h3 : min r (min g b) ≤ max r (max g b) :=
    le_trans (min_le_left _ _) (le_max_left _ _)
  constructor <;> [linarith; linarith]

lemma rgbToHsl_s_bounds (r g b : ℚ) (hr0 : 0 ≤ r) (hr1 : r ≤ 1) (hg0 : 0 ≤ g)
    (hg1 : g ≤ 1) (hb0 : 0 ≤ b) (hb1 : b ≤ 1) :
    0 ≤ (rgbToHsl r g b).s ∧ (rgbToHsl r g b).s ≤ 1 := by
  have h1 : max r (max g b) ≤ 1 := max_le hr1 (max_le hg1 hb1)
  have h2 : 0 ≤ min r (min g b) := le_min hr0 (le_min hg0 hb0)
  have h3 : min r (min g b) ≤ max r (max g b) :=
    le_trans (min_le_left _ _) (le_max_left _ _)
  by_cases heq : max r (max g b) = min r (min g b)
  · have : (rgbToHsl r g b).s = 0 := by
      simp only [rgbToHsl]
      rw [if_pos heq]
    rw [this]
    norm_num
  · have hlt : min r (min g b) < max r (max g b) := lt_of_le_of_ne h3 (Ne.symm heq)
    rw [rgbToHsl_s_of_ne r g b heq]
    by_cases hh : 1 / 2 < (max r (max g b) + min r (min g b)) / 2
    · rw [if_pos hh]
      have hden : 0 < 2 - max r (max g b) - min r (min g b) := by linarith
      constructor
      · exact div_nonneg (by linarith) hden.le
      · rw [div_le_one hden]; linarith
    · rw [if_neg hh]
      have hden : 0 < max r (max g b) + min r (min g b) := by linarith
      constructor
      · exact div_nonneg (by linarith) hden.le
      · rw [div_le_one hden]; linarith

lemma rgbToHsl_h_nonneg (r g b : ℚ) : 0 ≤ (rgbToHsl r g b).h := by
  have hmx_r : r ≤ max r (max g b) := le_max_left _ _
  have hmx_g : g ≤ max r (max g b) := le_trans (le_max_left _ _) (le_max_right _ _)
  have hmx_b : b ≤ max r (max g b) := le_trans (le_max_right _ _) (le_max_right _ _)
  have hmn_r : min r (min g b) ≤ r := min_le_left _ _
  have hmn_g : min r (min g b) ≤ g := le_trans (min_le_right _ _) (min_le_left _ _)
  have hmn_b : min r (min g b) ≤ b := le_trans (min_le_right _ _) (min_le_right _ _)
  by_cases heq : max r (max g b) = min r (min g b)
  · have : (rgbToHsl r g b).h = 0 := by
      simp only [rgbToHsl]
      rw [if_pos heq]
    rw [this]
  · have hlt : min r (min g b) < max r (max g b) :=
      lt_of_le_of_ne (le_trans hmn_r hmx_r) (Ne.symm heq)
    have hd : 0 < max r (max g b) - min r (min g b) := by linarith
    rw [rgbToHsl_h_of_ne r g b heq]
    have key : ∀ x y : ℚ, min r (min g b) ≤ x → y ≤ max r (max g b) →
        -1 ≤ (x - y) / (max r (max g b) - min r (min g b)) := by
      intro x y hx hy
      rw [le_div_iff₀ hd]
      linarith
    by_cases hxr : max r (max g b) = r
    · rw [if_pos hxr]
      by_cases hgb : g < b
      · rw [if_pos hgb]
        have := key g b hmn_g hmx_b
        linarith
      · rw [if_neg hgb]
        have : 0 ≤ (g - b) / (max r (max g b) - min r (min g b)) :=
          div_nonneg (by linarith [le_of_not_lt hgb]) hd.le
        linarith
    · rw [if_neg hxr]
      by_cases hxg : max r (max g b) = g
      · rw [if_pos hxg]
        have := key b r hmn_b hmx_r
        linarith
      · rw [if_neg hxg]
        have := key r g hmn_r hmx_g
        linarith

lemma hslToRgb_range (h s l : ℚ) (hs0 : 0 ≤ s) (hs1 : s ≤ 1) (hl0 : 0 ≤ l)
    (hl1 : l ≤ 1) (hh0 : 0 ≤ h) (hh1 : h ≤ 1) :
    (0 ≤ (hslToRgb h s l).r ∧ (hslToRgb h s l).r ≤ 1) ∧
      (0 ≤ (hslToRgb h s l).g ∧ (hslToRgb h s l).g ≤ 1) ∧
      (0 ≤ (hslToRgb h s l).b ∧ (hslToRgb h s l).b ≤ 1) := by
  by_cases hs : s = 0
  · simp only [hslToRgb, if_pos hs]
    exact ⟨⟨hl0, hl1⟩, ⟨hl0, hl1⟩, ⟨hl0, hl1⟩⟩
  · simp only [hslToRgb, if_neg hs]
    have hq : (0 : ℚ) ≤ 2 * l - (if l < 1 / 2 then l * (1 + s) else l + s - l * s) ∧
        2 * l - (if l < 1 / 2 then l * (1 + s) else l + s - l * s) ≤
          (if l < 1 / 2 then l * (1 + s) else l + s - l * s) ∧
        (if l < 1 / 2 then l * (1 + s) else l + s - l * s) ≤ 1 := by
      by_cases hl : l < 1 / 2
      · rw [if_pos hl]
        refine ⟨by nlinarith, by nlinarith, by nlinarith⟩
      · rw [if_neg hl]
        push_neg at hl
        refine ⟨by nlinarith, by nlinarith, by nlinarith⟩
    obtain ⟨hp0, hpq, hq1⟩ := hq
    refine ⟨hue2rgb_bounds _ _ _ hp0 hpq hq1 (by linarith) (by linarith),
      hue2rgb_bounds _ _ _ hp0 hpq hq1 (by linarith) (by linarith),
      hue2rgb_bounds _ _ _ hp0 hpq hq1 (by linarith) (by linarith)⟩

/-- C2.  For every run's pixel list, the sorter's output is a permutation of
the input, brightness is non-decreasing along the output, and pixels of equal
brightness keep their original relative order (stability, expressed as:
restriction to each brightness value is preserved). -/
theorem sorter_stable_ascending (ps : List Pixel) :
    (sortRun ps).Perm ps ∧
      List.Sorted brLE (sortRun ps) ∧
      ∀ c : ℚ, (sortRun ps).filter (fun x => decide (brightness x = c)) =
        ps.filter (fun x => decide (brightness x = c)) := by
  refine ⟨List.perm_insertionSort brLE ps, List.sorted_insertionSort brLE ps, ?_⟩
  exact fun c => filter_sortRun c ps

lemma asciiCharIndex_gray128 :
    asciiCharIndex defaultCharset (brightness ⟨128, 128, 128, 255⟩) = 4 := by
  unfold asciiCharIndex brightness defaultCharset
  norm_num

lemma asciiGlyph_gray128 :
    asciiGlyph defaultCharset ⟨128, 128, 128, 255⟩ = some '=' := by
  simp only [asciiGlyph]
  rw [asciiCharIndex_gray128]
  norm_num
  rfl

/-- C8.  For every cell and non-empty charset, the glyph is
`charset[⌊(r+g+b)/3/255 * (len-1)⌋]`; with the default 10-glyph charset a
cell of brightness 128 yields index 4 and glyph `'='`. -/
theorem ascii_glyph_mapping (chars : List Char) (p : Pixel)
    (hne : chars ≠ []) (hr : p.r ≤ 255) (hg : p.g ≤ 255) (hb : p.b ≤ 255) :
    asciiCharIndex chars (brightness p) =
        ⌊((p.r : ℚ) + p.g + p.b) / 3 / 255 * ((chars.length : ℚ) - 1)⌋ ∧
      asciiGlyph chars p =
        chars.get? (asciiCharIndex chars (brightness p)).toNat ∧
      (asciiGlyph chars p).isSome ∧
      asciiCharIndex defaultCharset (brightness ⟨128, 128, 128, 255⟩) = 4 ∧
      asciiGlyph defaultCharset ⟨128, 128, 128, 255⟩ = some '=' := by
  obtain ⟨h0, hlt⟩ := asciiCharIndex_bounds chars p hne hr hg hb
  have hglyph : asciiGlyph chars p =
      chars.get? (asciiCharIndex chars (brightness p)).toNat := by
    simp only [asciiGlyph]
    rw [if_neg (not_lt.mpr h0)]
  refine ⟨rfl, hglyph, ?_, asciiCharIndex_gray128, asciiGlyph_gray128⟩
  rw [hglyph, List.get?_eq_get hlt]
  rfl

/-- C8 witness: the theorem at the default charset and a mid-gray cell. -/
theorem ascii_glyph_mapping_witness :
    asciiCharIndex defaultCharset (brightness ⟨128, 128, 128, 255⟩) =
        ⌊((128 : ℚ) + 128 + 128) / 3 / 255 * ((defaultCharset.length : ℚ) - 1)⌋ ∧
      asciiGlyph defaultCharset ⟨128, 128, 128, 255⟩ =
        defaultCharset.get?
          (asciiCharIndex defaultCharset (brightness ⟨128, 128, 128, 255⟩)).toNat ∧
      (asciiGlyph defaultCharset ⟨128, 128, 128, 255⟩).isSome ∧
      asciiCharIndex defaultCharset (brightness ⟨128, 128, 128, 255⟩) = 4 ∧
      asciiGlyph defaultCharset ⟨128, 128, 128, 255⟩ = some '=' :=
  ascii_glyph_mapping defaultCharset ⟨128, 128, 128, 255⟩ (by decide)
    (by decide) (by decide) (by decide)

/-- C6 counterexample: with an empty charset the tick neither rejects the
configuration nor falls back to a default glyph — the computed index is `-1`
(out of bounds; in particular not `≥ 0`) and the lookup yields no glyph. -/
theorem ascii_empty_charset_oob :
    asciiCharIndex [] (brightness ⟨255, 255, 255, 255⟩) = -1 ∧
      asciiGlyph [] ⟨255, 255, 255, 255⟩ = none ∧
      ¬ 0 ≤ asciiCharIndex [] (brightness ⟨255, 255, 255, 255⟩) := by
  have hidx : asciiCharIndex [] (brightness ⟨255, 255, 255, 255⟩) = -1 := by
    unfold asciiCharIndex brightness
    norm_num
  refine ⟨hidx, ?_, by rw [hidx]; norm_num⟩
  simp only [asciiGlyph]
  rw [hidx]
  norm_num

/-- C6 amended: the code has no empty-charset guard, so an empty charset
produces an out-of-bounds lookup (no glyph); for every non-empty charset and
cell with 8-bit channels the index is in bounds and a glyph is found. -/
theorem ascii_charIndex_inbounds (chars : List Char) (p : Pixel)
    (hne : chars ≠ []) (hr : p.r ≤ 255) (hg : p.g ≤ 255) (hb : p.b ≤ 255) :
    0 ≤ asciiCharIndex chars (brightness p) ∧
      asciiCharIndex chars (brightness p) ≤ (chars.length : ℤ) - 1 ∧
      ∃ c : Char, asciiGlyph chars p = some c := by
  obtain ⟨h0, hlt⟩ := asciiCharIndex_bounds chars p hne hr hg hb
  refine ⟨h0, by omega, ?_⟩
  have hg : asciiGlyph chars p =
      chars.get? (asciiCharIndex chars (brightness p)).toNat := by
    simp only [asciiGlyph]
    rw [if_neg (not_lt.mpr h0)]
  exact ⟨chars.get ⟨_, hlt⟩, by rw [hg]; exact List.get?_eq_get hlt⟩

/-- C6 amended witness: the default charset on a black cell. -/
theorem ascii_charIndex_inbounds_witness :
    0 ≤ asciiCharIndex defaultCharset (brightness ⟨0, 0, 0, 0⟩) ∧
      asciiCharIndex defaultCharset (brightness ⟨0, 0, 0, 0⟩) ≤
        (defaultCharset.length : ℤ) - 1 ∧
      ∃ c : Char, asciiGlyph defaultCharset ⟨0, 0, 0, 0⟩ = some c :=
  ascii_charIndex_inbounds defaultCharset ⟨0, 0, 0, 0⟩ (by decide) (by decide)
    (by decide) (by decide)

/-- C9.  Every ASCII tick first clears the target to the fixed background
color `#0a0a1a`; each cell with `alpha > 10` is drawn twice — a solid black
shadow at offset `(+1,+1)` first, then the tint `⌊0.7·c + 0.3·mean⌋` at
`(0,0)` — while a cell with `alpha ≤ 10` is drawn exactly once, shadowless,
in the dimmed color `⌊0.4·tint⌋`. -/
theorem ascii_dual_layer_renderer (chars : List Char) (p : Pixel)
    (cells : List Pixel) :
    asciiCellOps chars p =
        (if 10 < p.a then
          [AsciiOp.text (asciiGlyph chars p) (0, 0, 0) 1 1,
            AsciiOp.text (asciiGlyph chars p)
              (⌊(p.r : ℚ) * (7 / 10) + ((p.r : ℚ) + p.g + p.b) / 3 * (3 / 10)⌋,
               ⌊(p.g : ℚ) * (7 / 10) + ((p.r : ℚ) + p.g + p.b) / 3 * (3 / 10)⌋,
               ⌊(p.b : ℚ) * (7 / 10) + ((p.r : ℚ) + p.g + p.b) / 3 * (3 / 10)⌋)
              0 0]
        else
          [AsciiOp.text (asciiGlyph chars p)
            (⌊(⌊(p.r : ℚ) * (7 / 10) + ((p.r : ℚ) + p.g + p.b) / 3 * (3 / 10)⌋ : ℚ) * (2 / 5)⌋,
             ⌊(⌊(p.g : ℚ) * (7 / 10) + ((p.r : ℚ) + p.g + p.b) / 3 * (3 / 10)⌋ : ℚ) * (2 / 5)⌋,
             ⌊(⌊(p.b : ℚ) * (7 / 10) + ((p.r : ℚ) + p.g + p.b) / 3 * (3 / 10)⌋ : ℚ) * (2 / 5)⌋)
            0 0]) ∧
      asciiFrameOps chars cells =
        AsciiOp.clear (10, 10, 26) :: cells.flatMap (asciiCellOps chars) := by
  constructor
  · unfold asciiCellOps tintChannel dimChannel brightness
    rfl
  · rfl

/-- C5.  `RGB→HSL→RGB` with no modification, followed by the code's
floor-to-8-bit step, reproduces every 8-bit channel triple within ±1 per
channel — in exact rational arithmetic the round trip is in fact exact. -/
theorem hsl_roundtrip_within_one (r g b : ℕ) (hr : r ≤ 255) (hg : g ≤ 255)
    (hb : b ≤ 255) :
    roundTrip r g b = (r, g, b) ∧
      (((roundTrip r g b).1 : ℤ) - r).natAbs ≤ 1 ∧
      (((roundTrip r g b).2.1 : ℤ) - g).natAbs ≤ 1 ∧
      (((roundTrip r g b).2.2 : ℤ) - b).natAbs ≤ 1 := by
  have hr' : (r : ℚ) ≤ 255 := by exact_mod_cast hr
  have hg' : (g : ℚ) ≤ 255 := by exact_mod_cast hg
  have hb' : (b : ℚ) ≤ 255 := by exact_mod_cast hb
  have hcore := hsl_roundTrip_core ((r : ℚ) / 255) ((g : ℚ) / 255) ((b : ℚ) / 255)
    (by positivity) (by rw [div_le_one (by norm_num : (0:ℚ) < 255)]; exact hr')
    (by positivity) (by rw [div_le_one (by norm_num : (0:ℚ) < 255)]; exact hg')
    (by positivity) (by rw [div_le_one (by norm_num : (0:ℚ) < 255)]; exact hb')
  have hmain : roundTrip r g b = (r, g, b) := by
    simp only [roundTrip, hcore]
    have er : (r : ℚ) / 255 * 255 = (r : ℚ) := div_mul_cancel₀ _ (by norm_num)
    have eg : (g : ℚ) / 255 * 255 = (g : ℚ) := div_mul_cancel₀ _ (by norm_num)
    have eb : (b : ℚ) / 255 * 255 = (b : ℚ) := div_mul_cancel₀ _ (by norm_num)
    rw [er, eg, eb, Int.floor_natCast, Int.floor_natCast, Int.floor_natCast]
    simp
  refine ⟨hmain, ?_, ?_, ?_⟩ <;> rw [hmain] <;> simp

/-- C5 witness: the round trip at the concrete triple (10, 200, 30). -/
theorem hsl_roundtrip_within_one_witness :
    roundTrip 10 200 30 = (10, 200, 30) ∧
      (((roundTrip 10 200 30).1 : ℤ) - 10).natAbs ≤ 1 ∧
      (((roundTrip 10 200 30).2.1 : ℤ) - 200).natAbs ≤ 1 ∧
      (((roundTrip 10 200 30).2.2 : ℤ) - 30).natAbs ≤ 1 :=
  hsl_roundtrip_within_one 10 200 30 (by decide) (by decide) (by decide)

lemma jsMod1_bounds (x : ℚ) (hx : 0 ≤ x) : 0 ≤ jsMod1 x ∧ jsMod1 x ≤ 1 := by
  unfold jsMod1
  rw [if_pos hx]
  exact ⟨Int.fract_nonneg _, (Int.fract_lt_one _).le⟩

lemma floor255_le (x : ℚ) (hx : x ≤ 1) : (⌊x * 255⌋).toNat ≤ 255 := by
  have h1 : x * 255 ≤ 255 := by linarith
  have h2 : ⌊x * 255⌋ ≤ 255 := by
    calc ⌊x * 255⌋ ≤ ⌊(255 : ℚ)⌋ := Int.floor_mono h1
      _ = 255 := by norm_num
  omega

/-- C3.  The recolorer computes exactly the spec's hue-shifted HSL round
trip: it equals the spec-side definition (written with the mathematical
`mod 1`), preserves the sorted pixel's alpha, and truncates each output
channel to an integer in `0..255` (the floored channels are `ℕ`, so `≥ 0`
holds by construction). -/
theorem recolorer_contract (cap n idx : ℕ) (time : ℚ) (pix : Pixel)
    (htime : 0 ≤ time) (hr : pix.r ≤ 255) (hg : pix.g ≤ 255) (hb : pix.b ≤ 255) :
    recolorPixel cap n idx time pix = recolorSpec cap n idx time pix ∧
      (recolorPixel cap n idx time pix).a = pix.a ∧
      (recolorPixel cap n idx time pix).r ≤ 255 ∧
      (recolorPixel cap n idx time pix).g ≤ 255 ∧
      (recolorPixel cap n idx time pix).b ≤ 255 := by
  have hR0 : (0 : ℚ) ≤ (pix.r : ℚ) / 255 := by positivity
  have hG0 : (0 : ℚ) ≤ (pix.g : ℚ) / 255 := by positivity
  have hB0 : (0 : ℚ) ≤ (pix.b : ℚ) / 255 := by positivity
  have hR1 : (pix.r : ℚ) / 255 ≤ 1 := by
    rw [div_le_one (by norm_num : (0 : ℚ) < 255)]; exact_mod_cast hr
  have hG1 : (pix.g : ℚ) / 255 ≤ 1 := by
    rw [div_le_one (by norm_num : (0 : ℚ) < 255)]; exact_mod_cast hg
  have hB1 : (pix.b : ℚ) / 255 ≤ 1 := by
    rw [div_le_one (by norm_num : (0 : ℚ) < 255)]; exact_mod_cast hb
  have harg1 : (0 : ℚ) ≤ (idx : ℚ) / n * ((n : ℚ) / cap) * (1 / 2) + time * (1 / 5) := by
    positivity
  have e1 : jsMod1 ((idx : ℚ) / n * ((n : ℚ) / cap) * (1 / 2) + time * (1 / 5)) =
      Int.fract ((idx : ℚ) / n * ((n : ℚ) / cap) * (1 / 2) + time * (1 / 5)) := by
    unfold jsMod1; rw [if_pos harg1]
  have hh0 := rgbToHsl_h_nonneg ((pix.r : ℚ) / 255) ((pix.g : ℚ) / 255) ((pix.b : ℚ) / 255)
  have harg2 : (0 : ℚ) ≤
      (rgbToHsl ((pix.r : ℚ) / 255) ((pix.g : ℚ) / 255) ((pix.b : ℚ) / 255)).h +
        Int.fract ((idx : ℚ) / n * ((n : ℚ) / cap) * (1 / 2) + time * (1 / 5)) :=
    add_nonneg hh0 (Int.fract_nonneg _)
  have e2 : jsMod1
      ((rgbToHsl ((pix.r : ℚ) / 255) ((pix.g : ℚ) / 255) ((pix.b : ℚ) / 255)).h +
        Int.fract ((idx : ℚ) / n * ((n : ℚ) / cap) * (1 / 2) + time * (1 / 5))) =
      Int.fract
        ((rgbToHsl ((pix.r : ℚ) / 255) ((pix.g : ℚ) / 255) ((pix.b : ℚ) / 255)).h +
          Int.fract ((idx : ℚ) / n * ((n : ℚ) / cap) * (1 / 2) + time * (1 / 5))) := by
    unfold jsMod1; rw [if_pos harg2]
  obtain ⟨hl0, hl1⟩ := rgbToHsl_l_bounds ((pix.r : ℚ) / 255) ((pix.g : ℚ) / 255)
    ((pix.b : ℚ) / 255) hR0 hR1 hG0 hG1 hB0 hB1
  obtain ⟨hs0, hs1⟩ := rgbToHsl_s_bounds ((pix.r : ℚ) / 255) ((pix.g : ℚ) / 255)
    ((pix.b : ℚ) / 255) hR0 hR1 hG0 hG1 hB0 hB1
  obtain ⟨hm0, hm1⟩ := jsMod1_bounds
    ((rgbToHsl ((pix.r : ℚ) / 255) ((pix.g : ℚ) / 255) ((pix.b : ℚ) / 255)).h +
      jsMod1 ((idx : ℚ) / n * ((n : ℚ) / cap) * (1 / 2) + time * (1 / 5)))
    (by
      rw [e1]
      exact harg2)
  have hs'0 : (0 : ℚ) ≤ min 1
      ((rgbToHsl ((pix.r : ℚ) / 255) ((pix.g : ℚ) / 255) ((pix.b : ℚ) / 255)).s + 1 / 2) :=
    le_min (by norm_num) (by linarith)
  have hs'1 : min 1
      ((rgbToHsl ((pix.r : ℚ) / 255) ((pix.g : ℚ) / 255) ((pix.b : ℚ) / 255)).s + 1 / 2) ≤ 1 :=
    min_le_left _ _
  obtain ⟨⟨_, hrng_r⟩, ⟨_, hrng_g⟩, ⟨_, hrng_b⟩⟩ := hslToRgb_range
    (jsMod1
      ((rgbToHsl ((pix.r : ℚ) / 255) ((pix.g : ℚ) / 255) ((pix.b : ℚ) / 255)).h +
        jsMod1 ((idx : ℚ) / n * ((n : ℚ) / cap) * (1 / 2) + time * (1 / 5))))
    (min 1 ((rgbToHsl ((pix.r : ℚ) / 255) ((pix.g : ℚ) / 255) ((pix.b : ℚ) / 255)).s + 1 / 2))
    ((rgbToHsl ((pix.r : ℚ) / 255) ((pix.g : ℚ) / 255) ((pix.b : ℚ) / 255)).l)
    hs'0 hs'1 hl0 hl1 hm0 hm1
  refine ⟨?_, rfl, floor255_le _ hrng_r, floor255_le _ hrng_g, floor255_le _ hrng_b⟩
  simp only [recolorPixel, recolorSpec]
  rw [e1, e2]

/-- C3 witness: the recolorer contract at a concrete run slot and pixel. -/
theorem recolorer_contract_witness :
    recolorPixel 80 2 1 (7 / 2) ⟨200, 30, 10, 255⟩ =
        recolorSpec 80 2 1 (7 / 2) ⟨200, 30, 10, 255⟩ ∧
      (recolorPixel 80 2 1 (7 / 2) ⟨200, 30, 10, 255⟩).a =
        (⟨200, 30, 10, 255⟩ : Pixel).a ∧
      (recolorPixel 80 2 1 (7 / 2) ⟨200, 30, 10, 255⟩).r ≤ 255 ∧
      (recolorPixel 80 2 1 (7 / 2) ⟨200, 30, 10, 255⟩).g ≤ 255 ∧
      (recolorPixel 80 2 1 (7 / 2) ⟨200, 30, 10, 255⟩).b ≤ 255 :=
  recolorer_contract 80 2 1 (7 / 2) ⟨200, 30, 10, 255⟩ (by norm_num) (by decide)
    (by decide) (by decide)

lemma qualifies_alpha (t : ℚ) (p : Pixel) (h : qualifies t p = true) : 10 < p.a := by
  simp only [qualifies, Bool.and_eq_true, decide_eq_true_eq] at h
  exact h.1

lemma qualLen_cons_pos (t : ℚ) (p : Pixel) (ps : List Pixel)
    (hq : qualifies t p = true) : qualLen t (p :: ps) = qualLen t ps + 1 := by
  simp [qualLen, hq]

lemma qualLen_cons_neg (t : ℚ) (p : Pixel) (ps : List Pixel)
    (hq : ¬ qualifies t p = true) : qualLen t (p :: ps) = 0 := by
  simp [qualLen, hq]

lemma qualLen_le_length (t : ℚ) : ∀ l : List Pixel, qualLen t l ≤ l.length := by
  intro l
  induction l with
  | nil => simp [qualLen]
  | cons p ps ih =>
    by_cases hq : qualifies t p
    · rw [qualLen_cons_pos t p ps hq, List.length_cons]; omega
    · rw [qualLen_cons_neg t p ps hq]; omega

lemma capRunLen_eq (t : ℚ) : ∀ (cap : ℕ) (l : List Pixel),
    capRunLen t cap l = min cap (qualLen t l) := by
  intro cap l
  induction l generalizing cap with
  | nil => cases cap <;> simp [capRunLen, qualLen]
  | cons p ps ih =>
    cases cap with
    | zero => simp [capRunLen]
    | succ c =>
      by_cases hq : qualifies t p
      · simp only [capRunLen, if_pos hq, ih c, qualLen_cons_pos t p ps hq]
        omega
      · simp [capRunLen, if_neg hq, qualLen_cons_neg t p ps hq]

lemma qualLen_drop (t : ℚ) : ∀ (n : ℕ) (l : List Pixel), n ≤ qualLen t l →
    qualLen t (l.drop n) = qualLen t l - n := by
  intro n
  induction n with
  | zero => intro l _; simp
  | succ m ih =>
    intro l hn
    cases l with
    | nil => simp [qualLen] at hn
    | cons p ps =>
      by_cases hq : qualifies t p
      · rw [qualLen_cons_pos t p ps hq] at hn ⊢
        have := ih ps (by omega)
        simp only [List.drop_succ_cons]
        omega
      · rw [qualLen_cons_neg t p ps hq] at hn
        omega

lemma qualLen_get (t : ℚ) : ∀ (l : List Pixel) (m : ℕ), m < qualLen t l →
    ∃ p, l.get? m = some p ∧ qualifies t p = true := by
  intro l
  induction l with
  | nil => intro m hm; simp [qualLen] at hm
  | cons p ps ih =>
    intro m hm
    by_cases hq : qualifies t p
    · cases m with
      | zero => exact ⟨p, rfl, hq⟩
      | succ m' =>
        rw [qualLen_cons_pos t p ps hq] at hm
        obtain ⟨q, hq1, hq2⟩ := ih m' (by omega)
        exact ⟨q, by simpa using hq1, hq2⟩
    · rw [qualLen_cons_neg t p ps hq] at hm
      omega

lemma chunksF_fuel (cap : ℕ) (hcap : 0 < cap) : ∀ (f f' s len : ℕ), len ≤ f → len ≤ f' →
    chunksF cap f s len = chunksF cap f' s len := by
  intro f
  induction f with
  | zero =>
    intro f' s len hf _
    interval_cases len
    cases f' <;> simp [chunksF]
  | succ m ih =>
    intro f' s len hf hf'
    cases len with
    | zero => cases f' <;> simp [chunksF]
    | succ n =>
      cases f' with
      | zero => omega
      | succ m' =>
        simp only [chunksF]
        by_cases hle : n + 1 ≤ cap
        · rw [if_pos hle, if_pos hle]
        · rw [if_neg hle, if_neg hle, ih m' (s + cap) (n + 1 - cap) (by omega) (by omega)]

lemma chunks_single (cap s len : ℕ) (h1 : 0 < len) (h2 : len ≤ cap) :
    chunks cap s len = [(s, len)] := by
  unfold chunks
  cases len with
  | zero => omega
  | succ n => simp [chunksF, h2]

lemma chunks_step (cap s len : ℕ) (hcap : 0 < cap) (h : cap < len) :
    chunks cap s len = (s, cap) :: chunks cap (s + cap) (len - cap) := by
  unfold chunks
  cases len with
  | zero => omega
  | succ n =>
    simp only [chunksF, if_neg (by omega : ¬ n + 1 ≤ cap)]
    rw [chunksF_fuel cap hcap n (n + 1 - cap) (s + cap) (n + 1 - cap) (by omega) le_rfl]

lemma chunks_mem (cap : ℕ) (hcap : 0 < cap) : ∀ (f s len : ℕ), len ≤ f →
    ∀ sn ∈ chunksF cap f s len,
      s ≤ sn.1 ∧ sn.1 + sn.2 ≤ s + len ∧ 0 < sn.2 ∧ sn.2 ≤ cap := by
  intro f
  induction f with
  | zero =>
    intro s len hf sn hsn
    interval_cases len
    simp [chunksF] at hsn
  | succ m ih =>
    intro s len hf sn hsn
    cases len with
    | zero => simp [chunksF] at hsn
    | succ n =>
      simp only [chunksF] at hsn
      by_cases hle : n + 1 ≤ cap
      · rw [if_pos hle] at hsn
        simp at hsn
        subst hsn
        omega
      · rw [if_neg hle] at hsn
        rcases List.mem_cons.mp hsn with h | h
        · subst h; omega
        · have := ih (s + cap) (n + 1 - cap) (by omega) sn h
          omega

lemma chunks_mem' (cap : ℕ) (hcap : 0 < cap) (s len : ℕ) (sn : ℕ × ℕ)
    (hsn : sn ∈ chunks cap s len) :
    s ≤ sn.1 ∧ sn.1 + sn.2 ≤ s + len ∧ 0 < sn.2 ∧ sn.2 ≤ cap :=
  chunks_mem cap hcap len s len le_rfl sn hsn

lemma chunks_pairwise (cap : ℕ) (hcap : 0 < cap) : ∀ (f s len : ℕ), len ≤ f →
    List.Pairwise (fun a b : ℕ × ℕ => a.1 + a.2 ≤ b.1) (chunksF cap f s len) := by
  intro f
  induction f with
  | zero =>
    intro s len hf
    interval_cases len
    simp [chunksF]
  | succ m ih =>
    intro s len hf
    cases len with
    | zero => simp [chunksF]
    | succ n =>
      simp only [chunksF]
      by_cases hle : n + 1 ≤ cap
      · rw [if_pos hle]; simp
      · rw [if_neg hle]
        refine List.Pairwise.cons ?_ (ih (s + cap) (n + 1 - cap) (by omega))
        intro sn hsn
        have := chunks_mem cap hcap m (s + cap) (n + 1 - cap) (by omega) sn hsn
        omega

lemma specIntervalsAux_canon (t : ℚ) : ∀ (N : ℕ) (l : List Pixel) (f i : ℕ),
    l.length ≤ N → l.length < f → specIntervalsAux t f i l = specIntervals t i l := by
  intro N
  induction N with
  | zero =>
    intro l f i hN hf
    have : l = [] := List.length_eq_zero.mp (by omega)
    subst this
    cases f with
    | zero => omega
    | succ m => simp [specIntervalsAux, specIntervals]
  | succ N ih =>
    intro l f i hN hf
    cases l with
    | nil =>
      cases f with
      | zero => omega
      | succ m => simp [specIntervalsAux, specIntervals]
    | cons p ps =>
      cases f with
      | zero => omega
      | succ m =>
        by_cases hq : qualifies t p
        · have hn1 : 0 < qualLen t (p :: ps) := by
            rw [qualLen_cons_pos t p ps hq]; omega
          have hdlen : ((p :: ps).drop (qualLen t (p :: ps))).length = 
              (p :: ps).length - qualLen t (p :: ps) := List.length_drop _ _
          have hql := qualLen_le_length t (p :: ps)
          have hstep : specIntervalsAux t (m + 1) i (p :: ps) =
              (i, qualLen t (p :: ps)) ::
                specIntervalsAux t m (i + qualLen t (p :: ps))
                  ((p :: ps).drop (qualLen t (p :: ps))) := by
            simp only [specIntervalsAux, if_pos hq]
          have hstep' : specIntervalsAux t ((p :: ps).length + 1) i (p :: ps) =
              (i, qualLen t (p :: ps)) ::
                specIntervalsAux t ((p :: ps).length) (i + qualLen t (p :: ps))
                  ((p :: ps).drop (qualLen t (p :: ps))) := by
            simp only [List.length_cons, specIntervalsAux, if_pos hq]
          rw [hstep, specIntervals, hstep',
            ih ((p :: ps).drop (qualLen t (p :: ps))) m (i + qualLen t (p :: ps))
              (by simp only [hdlen, List.length_cons] at *; omega)
              (by simp only [hdlen, List.length_cons] at *; omega),
            ih ((p :: ps).drop (qualLen t (p :: ps))) ((p :: ps).length)
              (i + qualLen t (p :: ps))
              (by simp only [hdlen, List.length_cons] at *; omega)
              (by simp only [hdlen, List.length_cons] at *; omega)]
        · have hstep : specIntervalsAux t (m + 1) i (p :: ps) =
              specIntervalsAux t m (i + 1) ps := by
            simp only [specIntervalsAux, if_neg hq]
          have hstep' : specIntervalsAux t ((p :: ps).length + 1) i (p :: ps) =
              specIntervalsAux t ((p :: ps).length) (i + 1) ps := by
            simp only [List.length_cons, specIntervalsAux, if_neg hq]
          rw [hstep, specIntervals, hstep',
            ih ps m (i + 1) (by simp at hN; omega) (by simp at hf; omega),
            ih ps ((p :: ps).length) (i + 1) (by simp at hN; omega) (by simp)]

lemma specIntervals_nil (t : ℚ) (i : ℕ) : specIntervals t i [] = [] := rfl

lemma specIntervals_cons_pos (t : ℚ) (i : ℕ) (p : Pixel) (ps : List Pixel)
    (hq : qualifies t p = true) :
    specIntervals t i (p :: ps) =
      (i, qualLen t (p :: ps)) ::
        specIntervals t (i + qualLen t (p :: ps))
          ((p :: ps).drop (qualLen t (p :: ps))) := by
  have hql := qualLen_le_length t (p :: ps)
  have hn1 : 0 < qualLen t (p :: ps) := by
    rw [qualLen_cons_pos t p ps hq]; omega
  rw [specIntervals]
  have hstep' : specIntervalsAux t ((p :: ps).length + 1) i (p :: ps) =
      (i, qualLen t (p :: ps)) ::
        specIntervalsAux t ((p :: ps).length) (i + qualLen t (p :: ps))
          ((p :: ps).drop (qualLen t (p :: ps))) := by
    simp only [List.length_cons, specIntervalsAux, if_pos hq]
  rw [hstep', specIntervalsAux_canon t (p :: ps).length _ _ _
    (by simp [List.length_drop]) (by simp only [List.length_drop, List.length_cons]; omega)]

lemma specIntervals_cons_neg (t : ℚ) (i : ℕ) (p : Pixel) (ps : List Pixel)
    (hq : ¬ qualifies t p = true) :
    specIntervals t i (p :: ps) = specIntervals t (i + 1) ps := by
  rw [specIntervals]
  have hstep' : specIntervalsAux t ((p :: ps).length + 1) i (p :: ps) =
      specIntervalsAux t ((p :: ps).length) (i + 1) ps := by
    simp only [List.length_cons, specIntervalsAux, if_neg hq]
  rw [hstep', specIntervalsAux_canon t ps.length _ _ _ le_rfl (by simp)]

lemma specRuns_cons_pos (t : ℚ) (cap i : ℕ) (p : Pixel) (ps : List Pixel)
    (hq : qualifies t p = true) :
    specRuns t cap i (p :: ps) =
      chunks cap i (qualLen t (p :: ps)) ++
        specRuns t cap (i + qualLen t (p :: ps))
          ((p :: ps).drop (qualLen t (p :: ps))) := by
  unfold specRuns
  rw [specIntervals_cons_pos t i p ps hq, List.flatMap_cons]

lemma specRuns_cons_neg (t : ℚ) (cap i : ℕ) (p : Pixel) (ps : List Pixel)
    (hq : ¬ qualifies t p = true) :
    specRuns t cap i (p :: ps) = specRuns t cap (i + 1) ps := by
  unfold specRuns
  rw [specIntervals_cons_neg t i p ps hq]

lemma rowRunsAux_spec (t : ℚ) (cap : ℕ) (hcap : 0 < cap) :
    ∀ (N : ℕ) (l : List Pixel) (fuel i : ℕ), l.length ≤ N → l.length < fuel →
      rowRunsAux t cap fuel i l = some (specRuns t cap i l) := by
  intro N
  induction N with
  | zero =>
    intro l fuel i hN hf
    have : l = [] := List.length_eq_zero.mp (by omega)
    subst this
    cases fuel with
    | zero => omega
    | succ m => simp [rowRunsAux, specRuns, specIntervals_nil]
  | succ N ih =>
    intro l fuel i hN hf
    cases l with
    | nil =>
      cases fuel with
      | zero => omega
      | succ m => simp [rowRunsAux, specRuns, specIntervals_nil]
    | cons p ps =>
      cases fuel with
      | zero => omega
      | succ m =>
        by_cases hq : qualifies t p
        · have hLq : 0 < qualLen t (p :: ps) := by
            rw [qualLen_cons_pos t p ps hq]; omega
          have hql := qualLen_le_length t (p :: ps)
          have hcrl : capRunLen t cap (p :: ps) = min cap (qualLen t (p :: ps)) :=
            capRunLen_eq t cap (p :: ps)
          have hn1 : 0 < capRunLen t cap (p :: ps) := by omega
          have hstep : rowRunsAux t cap (m + 1) i (p :: ps) =
              match rowRunsAux t cap m (i + capRunLen t cap (p :: ps))
                  ((p :: ps).drop (capRunLen t cap (p :: ps))) with
              | none => none
              | some rs => some ((i, capRunLen t cap (p :: ps)) :: rs) := by
            simp only [rowRunsAux, if_pos hq]
          rw [hstep, ih ((p :: ps).drop (capRunLen t cap (p :: ps))) m
            (i + capRunLen t cap (p :: ps))
            (by simp only [List.length_drop, List.length_cons] at *; omega)
            (by simp only [List.length_drop, List.length_cons] at *; omega)]
          rw [specRuns_cons_pos t cap i p ps hq]
          by_cases hcmp : qualLen t (p :: ps) ≤ cap
          · have hneq : capRunLen t cap (p :: ps) = qualLen t (p :: ps) := by omega
            rw [hneq, chunks_single cap i (qualLen t (p :: ps)) hLq hcmp]
            simp
          · push_neg at hcmp
            have hneq : capRunLen t cap (p :: ps) = cap := by omega
            rw [hneq, chunks_step cap i (qualLen t (p :: ps)) hcap hcmp]
            have hqdrop : qualLen t ((p :: ps).drop cap) = qualLen t (p :: ps) - cap :=
              qualLen_drop t cap (p :: ps) (by omega)
            have hpos : 0 < qualLen t ((p :: ps).drop cap) := by omega
            cases hD : (p :: ps).drop cap with
            | nil => rw [hD] at hpos; simp [qualLen] at hpos
            | cons q rest =>
              have hq2 : qualifies t q = true := by
                by_contra hq2
                rw [hD, qualLen_cons_neg t q rest hq2] at hpos
                omega
              rw [specRuns_cons_pos t cap (i + cap) q rest hq2]
              have hqval : qualLen t (q :: rest) = qualLen t (p :: ps) - cap := by
                rw [← hD, hqdrop]
              rw [hqval]
              have hdropdrop : (q :: rest).drop (qualLen t (p :: ps) - cap) =
                  (p :: ps).drop (qualLen t (p :: ps)) := by
                rw [← hD, List.drop_drop]
                congr 1
                omega
              rw [hdropdrop]
              have hidx : i + cap + (qualLen t (p :: ps) - cap) =
                  i + qualLen t (p :: ps) := by omega
              rw [hidx]
              simp
        · have hstep : rowRunsAux t cap (m + 1) i (p :: ps) =
              rowRunsAux t cap m (i + 1) ps := by
            simp only [rowRunsAux, if_neg hq]
          rw [hstep, ih ps m (i + 1) (by simp at hN; omega) (by simp at hf; omega),
            specRuns_cons_neg t cap i p ps hq]

lemma specIntervals_sound (t : ℚ) : ∀ (N : ℕ) (l : List Pixel) (i : ℕ), l.length ≤ N →
    ∀ sn ∈ specIntervals t i l,
      i ≤ sn.1 ∧ 0 < sn.2 ∧ sn.1 + sn.2 ≤ i + l.length ∧
        ∀ j, sn.1 ≤ j → j < sn.1 + sn.2 →
          ∃ p, l.get? (j - i) = some p ∧ qualifies t p = true := by
  intro N
  induction N with
  | zero =>
    intro l i hN sn hsn
    have : l = [] := List.length_eq_zero.mp (by omega)
    subst this
    simp [specIntervals_nil] at hsn
  | succ N ih =>
    intro l i hN sn hsn
    cases l with
    | nil => simp [specIntervals_nil] at hsn
    | cons p ps =>
      by_cases hq : qualifies t p
      · rw [specIntervals_cons_pos t i p ps hq] at hsn
        have hLq : 0 < qualLen t (p :: ps) := by
          rw [qualLen_cons_pos t p ps hq]; omega
        have hql := qualLen_le_length t (p :: ps)
        rcases List.mem_cons.mp hsn with h | h
        · subst h
          refine ⟨le_rfl, hLq, by simpa using hql, ?_⟩
          intro j hj1 hj2
          exact qualLen_get t (p :: ps) (j - i) (by omega)
        · have hdlen : ((p :: ps).drop (qualLen t (p :: ps))).length =
              (p :: ps).length - qualLen t (p :: ps) := List.length_drop _ _
          obtain ⟨h1, h2, h3, h4⟩ := ih ((p :: ps).drop (qualLen t (p :: ps)))
            (i + qualLen t (p :: ps))
            (by rw [hdlen]; simp only [List.length_cons] at hN ⊢; omega) sn h
          refine ⟨by omega, h2, by simp only [List.length_cons] at *; omega, ?_⟩
          intro j hj1 hj2
          obtain ⟨q, hq1, hq2⟩ := h4 j hj1 hj2
          rw [List.get?_drop] at hq1
          refine ⟨q, ?_, hq2⟩
          rw [show j - i = qualLen t (p :: ps) + (j - (i + qualLen t (p :: ps))) by omega]
          exact hq1
      · rw [specIntervals_cons_neg t i p ps hq] at hsn
        obtain ⟨h1, h2, h3, h4⟩ := ih ps (i + 1)
          (by simp only [List.length_cons] at hN; omega) sn hsn
        refine ⟨by omega, h2, by simp only [List.length_cons]; omega, ?_⟩
        intro j hj1 hj2
        obtain ⟨q, hq1, hq2⟩ := h4 j hj1 hj2
        refine ⟨q, ?_, hq2⟩
        rw [show j - i = (j - (i + 1)) + 1 by omega]
        simpa using hq1

lemma specIntervals_pairwise (t : ℚ) : ∀ (N : ℕ) (l : List Pixel) (i : ℕ),
    l.length ≤ N →
    List.Pairwise (fun a b : ℕ × ℕ => a.1 + a.2 ≤ b.1) (specIntervals t i l) := by
  intro N
  induction N with
  | zero =>
    intro l i hN
    have : l = [] := List.length_eq_zero.mp (by omega)
    subst this
    simp [specIntervals_nil]
  | succ N ih =>
    intro l i hN
    cases l with
    | nil => simp [specIntervals_nil]
    | cons p ps =>
      by_cases hq : qualifies t p
      · rw [specIntervals_cons_pos t i p ps hq]
        have hLq : 0 < qualLen t (p :: ps) := by
          rw [qualLen_cons_pos t p ps hq]; omega
        refine List.Pairwise.cons ?_ (ih _ _ (by
          simp only [List.length_drop, List.length_cons] at *; omega))
        intro sn hsn
        have := (specIntervals_sound t ((p :: ps).length) _ _
          (by simp only [List.length_drop]; omega) sn hsn).1
        omega
      · rw [specIntervals_cons_neg t i p ps hq]
        exact ih ps (i + 1) (by simp only [List.length_cons] at hN; omega)

lemma specRuns_sound (t : ℚ) (cap : ℕ) (hcap : 0 < cap) (i : ℕ) (l : List Pixel)
    (sn : ℕ × ℕ) (hsn : sn ∈ specRuns t cap i l) :
    0 < sn.2 ∧ sn.2 ≤ cap ∧
      ∀ j, sn.1 ≤ j → j < sn.1 + sn.2 →
        ∃ p, l.get? (j - i) = some p ∧ qualifies t p = true ∧ 10 < p.a := by
  obtain ⟨iv, hiv, hmem⟩ := List.mem_flatMap.mp hsn
  obtain ⟨hc1, hc2, hc3, hc4⟩ := chunks_mem' cap hcap iv.1 iv.2 sn hmem
  obtain ⟨_, _, _, hs4⟩ := specIntervals_sound t l.length l i le_rfl iv hiv
  refine ⟨hc3, hc4, ?_⟩
  intro j hj1 hj2
  obtain ⟨p, hp1, hp2⟩ := hs4 j (by omega) (by omega)
  exact ⟨p, hp1, hp2, qualifies_alpha t p hp2⟩

lemma specRuns_pairwise (t : ℚ) (cap : ℕ) (hcap : 0 < cap) (i : ℕ) (l : List Pixel) :
    List.Pairwise (fun a b : ℕ × ℕ => a.1 + a.2 ≤ b.1) (specRuns t cap i l) := by
  unfold specRuns
  rw [show (specIntervals t i l).flatMap (fun sn => chunks cap sn.1 sn.2) =
    ((specIntervals t i l).map (fun sn => chunks cap sn.1 sn.2)).flatten from rfl]
  rw [List.pairwise_flatten]
  refine ⟨?_, ?_⟩
  · intro s hs
    obtain ⟨iv, _, hiv⟩ := List.mem_map.mp hs
    rw [← hiv]
    exact chunks_pairwise cap hcap iv.2 iv.1 iv.2 le_rfl
  · rw [List.pairwise_map]
    refine List.Pairwise.imp ?_ (specIntervals_pairwise t l.length l i le_rfl)
    intro a b hab x hx y hy
    have hxa := chunks_mem' cap hcap a.1 a.2 x hx
    have hyb := chunks_mem' cap hcap b.1 b.2 y hy
    omega

/-- C1.  For `sortLength > 0`, `sortRow`'s scan detects exactly the maximal
qualifying intervals of the row, each split left-to-right into pieces of at
most `sortLength` pixels; the runs are emitted left-to-right, pairwise
non-overlapping, non-empty, length-capped, and every pixel of every run
qualifies — in particular its alpha exceeds 10. -/
theorem runSegmenter_coverage (t : ℚ) (cap : ℕ) (row : List Pixel)
    (hcap : 0 < cap) :
    rowRuns t cap row = some (specRuns t cap 0 row) ∧
      List.Pairwise (fun a b : ℕ × ℕ => a.1 + a.2 ≤ b.1) (specRuns t cap 0 row) ∧
      ∀ sn ∈ specRuns t cap 0 row, 0 < sn.2 ∧ sn.2 ≤ cap ∧
        ∀ j, sn.1 ≤ j → j < sn.1 + sn.2 →
          ∃ p, row.get? j = some p ∧ qualifies t p = true ∧ 10 < p.a := by
  refine ⟨rowRunsAux_spec t cap hcap row.length row (row.length + 1) 0 le_rfl
      (by omega), specRuns_pairwise t cap hcap 0 row, ?_⟩
  intro sn hsn
  obtain ⟨h1, h2, h3⟩ := specRuns_sound t cap hcap 0 row sn hsn
  refine ⟨h1, h2, ?_⟩
  intro j hj1 hj2
  obtain ⟨p, hp1, hp2, hp3⟩ := h3 j hj1 hj2
  rw [Nat.sub_zero] at hp1
  exact ⟨p, hp1, hp2, hp3⟩

/-- C1 witness: the segmenter theorem at threshold 0.3, sortLength 2 and a
concrete three-pixel row. -/
theorem runSegmenter_coverage_witness :
    rowRuns (3 / 10) 2 [⟨255, 255, 255, 255⟩, ⟨10, 10, 10, 255⟩, ⟨200, 200, 200, 255⟩] =
        some (specRuns (3 / 10) 2 0
          [⟨255, 255, 255, 255⟩, ⟨10, 10, 10, 255⟩, ⟨200, 200, 200, 255⟩]) ∧
      List.Pairwise (fun a b : ℕ × ℕ => a.1 + a.2 ≤ b.1)
        (specRuns (3 / 10) 2 0
          [⟨255, 255, 255, 255⟩, ⟨10, 10, 10, 255⟩, ⟨200, 200, 200, 255⟩]) ∧
      ∀ sn ∈ specRuns (3 / 10) 2 0
          [⟨255, 255, 255, 255⟩, ⟨10, 10, 10, 255⟩, ⟨200, 200, 200, 255⟩],
        0 < sn.2 ∧ sn.2 ≤ 2 ∧
          ∀ j, sn.1 ≤ j → j < sn.1 + sn.2 →
            ∃ p, [(⟨255, 255, 255, 255⟩ : Pixel), ⟨10, 10, 10, 255⟩,
                ⟨200, 200, 200, 255⟩].get? j = some p ∧
              qualifies (3 / 10) p = true ∧ 10 < p.a :=
  runSegmenter_coverage (3 / 10) 2
    [⟨255, 255, 255, 255⟩, ⟨10, 10, 10, 255⟩, ⟨200, 200, 200, 255⟩] (by decide)

lemma qualifies_white : qualifies (3 / 10) ⟨255, 255, 255, 255⟩ = true := by
  simp only [qualifies, brightness, Bool.and_eq_true, decide_eq_true_eq]
  norm_num

/-- C7.  With `sortLength = 0` and a qualifying pixel present, the outer
loop of `sortRow` never advances: both the run scan and the full row
transform fail to terminate for every amount of fuel (the code hangs instead
of disabling the effect). -/
theorem sortLength_zero_hangs :
    (∀ fuel i, rowRunsAux (3 / 10) 0 fuel i [⟨255, 255, 255, 255⟩] = none) ∧
      ∀ fuel k clock,
        sortRowAux (3 / 10) 0 clock fuel k [⟨255, 255, 255, 255⟩] = none := by
  constructor
  · intro fuel
    induction fuel with
    | zero => intro i; rfl
    | succ m ih =>
      intro i
      simp only [rowRunsAux, qualifies_white, if_true, capRunLen, List.drop_zero,
        ih (i + 0)]
  · intro fuel
    induction fuel with
    | zero => intro k clock; rfl
    | succ m ih =>
      intro k clock
      simp only [sortRowAux, qualifies_white, if_true, capRunLen, List.drop_zero,
        ih (k + 1) clock]

lemma specRuns_decomp_cap (t : ℚ) (cap i : ℕ) (p : Pixel) (ps : List Pixel)
    (hcmp : cap < qualLen t (p :: ps)) :
    specRuns t cap (i + cap) ((p :: ps).drop cap) =
      chunks cap (i + cap) (qualLen t (p :: ps) - cap) ++
        specRuns t cap (i + qualLen t (p :: ps))
          ((p :: ps).drop (qualLen t (p :: ps))) := by
  have hqdrop : qualLen t ((p :: ps).drop cap) = qualLen t (p :: ps) - cap :=
    qualLen_drop t cap (p :: ps) (by omega)
  have hpos : 0 < qualLen t ((p :: ps).drop cap) := by omega
  cases hD : (p :: ps).drop cap with
  | nil => rw [hD] at hpos; simp [qualLen] at hpos
  | cons q rest =>
    rw [hD] at hpos hqdrop
    have hq2 : qualifies t q = true := by
      by_contra hq2
      rw [qualLen_cons_neg t q rest hq2] at hpos
      omega
    rw [specRuns_cons_pos t cap (i + cap) q rest hq2, hqdrop]
    have hdropdrop : (q :: rest).drop (qualLen t (p :: ps) - cap) =
        (p :: ps).drop (qualLen t (p :: ps)) := by
      rw [← hD, List.drop_drop]
      congr 1
      omega
    rw [hdropdrop]
    have hidx : i + cap + (qualLen t (p :: ps) - cap) = i + qualLen t (p :: ps) := by
      omega
    rw [hidx]

lemma processRun_length (cap : ℕ) (time : ℚ) (ps : List Pixel) :
    (processRun cap time ps).length = ps.length := by
  simp [processRun, sortRun, List.length_insertionSort]

lemma sortRowAux_master (t : ℚ) (cap : ℕ) (hcap : 0 < cap) (clock : ℕ → ℚ) :
    ∀ (N : ℕ) (l : List Pixel) (fuel k i : ℕ), l.length ≤ N → l.length < fuel →
      ∃ out k', sortRowAux t cap clock fuel k l = some (out, k') ∧
        out.length = l.length ∧
        ∀ j, (∀ sn ∈ specRuns t cap i l, i + j < sn.1 ∨ sn.1 + sn.2 ≤ i + j) →
          out.get? j = l.get? j := by
  intro N
  induction N with
  | zero =>
    intro l fuel k i hN hf
    have : l = [] := List.length_eq_zero.mp (by omega)
    subst this
    cases fuel with
    | zero => omega
    | succ m => exact ⟨[], k, rfl, rfl, fun j _ => rfl⟩
  | succ N ih =>
    intro l fuel k i hN hf
    cases l with
    | nil =>
      cases fuel with
      | zero => omega
      | succ m => exact ⟨[], k, rfl, rfl, fun j _ => rfl⟩
    | cons p ps =>
      cases fuel with
      | zero => omega
      | succ m =>
        by_cases hq : qualifies t p
        · have hLq : 0 < qualLen t (p :: ps) := by
            rw [qualLen_cons_pos t p ps hq]; omega
          have hql := qualLen_le_length t (p :: ps)
          have hcrl : capRunLen t cap (p :: ps) = min cap (qualLen t (p :: ps)) :=
            capRunLen_eq t cap (p :: ps)
          have hn1 : 0 < capRunLen t cap (p :: ps) := by omega
          have hnlen : capRunLen t cap (p :: ps) ≤ (p :: ps).length := by omega
          obtain ⟨rest, k', hrec, hrlen, hrpres⟩ :=
            ih ((p :: ps).drop (capRunLen t cap (p :: ps))) m (k + 1)
              (i + capRunLen t cap (p :: ps))
              (by simp only [List.length_drop, List.length_cons] at *; omega)
              (by simp only [List.length_drop, List.length_cons] at *; omega)
          have hstep : sortRowAux t cap clock (m + 1) k (p :: ps) =
              some (processRun cap (clock k)
                  ((p :: ps).take (capRunLen t cap (p :: ps))) ++ rest, k') := by
            simp only [sortRowAux, if_pos hq, hrec]
          refine ⟨_, k', hstep, ?_, ?_⟩
          · rw [List.length_append, processRun_length, List.length_take,
              List.length_drop] at *
            omega
          · intro j hj
            have hrunsdecomp := specRuns_cons_pos t cap i p ps hq
            have hjge : capRunLen t cap (p :: ps) ≤ j := by
              by_cases hcmp : qualLen t (p :: ps) ≤ cap
              · have hfirst : (i, qualLen t (p :: ps)) ∈ specRuns t cap i (p :: ps) := by
                  rw [hrunsdecomp,
                    chunks_single cap i (qualLen t (p :: ps)) hLq hcmp]
                  simp
                have := hj _ hfirst
                omega
              · push_neg at hcmp
                have hfirst : (i, cap) ∈ specRuns t cap i (p :: ps) := by
                  rw [hrunsdecomp, chunks_step cap i (qualLen t (p :: ps)) hcap hcmp]
                  simp
                have := hj _ hfirst
                omega
            have hplen : (processRun cap (clock k)
                ((p :: ps).take (capRunLen t cap (p :: ps)))).length =
                capRunLen t cap (p :: ps) := by
              rw [processRun_length, List.length_take]
              omega
            rw [List.get?_append_right (by omega), hplen]
            have htail : ∀ sn ∈ specRuns t cap (i + capRunLen t cap (p :: ps))
                ((p :: ps).drop (capRunLen t cap (p :: ps))),
                sn ∈ specRuns t cap i (p :: ps) := by
              intro sn hsn
              by_cases hcmp : qualLen t (p :: ps) ≤ cap
              · have hneq : capRunLen t cap (p :: ps) = qualLen t (p :: ps) := by omega
                rw [hneq] at hsn
                rw [hrunsdecomp, chunks_single cap i (qualLen t (p :: ps)) hLq hcmp]
                simp [hsn]
              · push_neg at hcmp
                have hneq : capRunLen t cap (p :: ps) = cap := by omega
                rw [hneq] at hsn
                rw [specRuns_decomp_cap t cap i p ps hcmp] at hsn
                rw [hrunsdecomp, chunks_step cap i (qualLen t (p :: ps)) hcap hcmp]
                rcases List.mem_append.mp hsn with h | h
                · exact List.mem_append.mpr (Or.inl (List.mem_cons.mpr (Or.inr h)))
                · exact List.mem_append.mpr (Or.inr h)
            have := hrpres (j - capRunLen t cap (p :: ps)) (by
              intro sn hsn
              have := hj sn (htail sn hsn)
              omega)
            rw [this, List.get?_drop]
            congr 1
            omega
        · obtain ⟨rest, k', hrec, hrlen, hrpres⟩ :=
            ih ps m k (i + 1) (by simp at hN; omega) (by simp at hf; omega)
          have hstep : sortRowAux t cap clock (m + 1) k (p :: ps) =
              some (p :: rest, k') := by
            simp only [sortRowAux, if_neg hq, hrec]
          refine ⟨_, k', hstep, by simpa using hrlen, ?_⟩
          intro j hj
          cases j with
          | zero => rfl
          | succ j' =>
            simp only [List.get?_cons_succ]
            refine hrpres j' ?_
            intro sn hsn
            have := hj sn (by rwa [specRuns_cons_neg t cap i p ps hq])
            omega

lemma specRuns_nil_unqual (t : ℚ) (cap : ℕ) : ∀ (l : List Pixel) (i : ℕ),
    (∀ p ∈ l, ¬ qualifies t p = true) → specRuns t cap i l = [] := by
  intro l
  induction l with
  | nil => intro i _; simp [specRuns, specIntervals_nil]
  | cons p ps ih =>
    intro i h
    rw [specRuns_cons_neg t cap i p ps (h p (List.mem_cons_self p ps))]
    exact ih (i + 1) fun q hq => h q (List.mem_cons_of_mem p hq)

lemma not_qualifies_ge_one (t : ℚ) (p : Pixel) (ht : 1 ≤ t) (hr : p.r ≤ 255)
    (hg : p.g ≤ 255) (hb : p.b ≤ 255) : ¬ qualifies t p = true := by
  simp only [qualifies, Bool.and_eq_true, decide_eq_true_eq, not_and]
  intro _
  have h1 : brightness p ≤ 255 := brightness_le_255 p hr hg hb
  have h2 : (255 : ℚ) ≤ t * 255 := by nlinarith
  linarith

lemma sortRowAux_unqual (t : ℚ) (cap : ℕ) (clock : ℕ → ℚ) :
    ∀ (fuel k : ℕ) (l : List Pixel), l.length < fuel →
      (∀ p ∈ l, ¬ qualifies t p = true) →
      sortRowAux t cap clock fuel k l = some (l, k) := by
  intro fuel
  induction fuel with
  | zero => intro k l hf; omega
  | succ m ih =>
    intro k l hf hq
    cases l with
    | nil => rfl
    | cons p ps =>
      have hstep : sortRowAux t cap clock (m + 1) k (p :: ps) =
          match sortRowAux t cap clock m k ps with
          | none => none
          | some (rest, k') => some (p :: rest, k') := by
        simp only [sortRowAux, if_neg (hq p (List.mem_cons_self p ps))]
      rw [hstep, ih k ps (by simp at hf; omega)
        fun q hqm => hq q (List.mem_cons_of_mem p hqm)]

lemma applyFrame_unqual (t : ℚ) (cap : ℕ) (clock : ℕ → ℚ) :
    ∀ (frame : List (List Pixel)) (k : ℕ),
      (∀ row ∈ frame, ∀ p ∈ row, ¬ qualifies t p = true) →
      applyFrame t cap clock frame k = some (frame, k) := by
  intro frame
  induction frame with
  | nil => intro k _; rfl
  | cons row rows ih =>
    intro k h
    have hrow : sortRow t cap clock k row = some (row, k) :=
      sortRowAux_unqual t cap clock (row.length + 1) k row (by omega)
        (h row (List.mem_cons_self row rows))
    simp only [applyFrame, hrow,
      ih k fun r hr p hp => h r (List.mem_cons_of_mem row hr) p hp]

lemma applyFrame_master (t : ℚ) (cap : ℕ) (hcap : 0 < cap) (clock : ℕ → ℚ) :
    ∀ (frame : List (List Pixel)) (k : ℕ),
      ∃ outs k', applyFrame t cap clock frame k = some (outs, k') ∧
        outs.length = frame.length ∧
        ∀ ri row outRow, frame.get? ri = some row → outs.get? ri = some outRow →
          ∀ j, (∀ sn ∈ specRuns t cap 0 row, j < sn.1 ∨ sn.1 + sn.2 ≤ j) →
            outRow.get? j = row.get? j := by
  intro frame
  induction frame with
  | nil =>
    intro k
    exact ⟨[], k, rfl, rfl, fun ri row outRow h => by simp at h⟩
  | cons row rows ih =>
    intro k
    obtain ⟨out, k1, hsome, hlen, hpres⟩ := sortRowAux_master t cap hcap clock
      row.length row (row.length + 1) k 0 le_rfl (by omega)
    obtain ⟨outs, k2, hsome2, hlen2, hpres2⟩ := ih k1
    refine ⟨out :: outs, k2, ?_, by simpa using hlen2, ?_⟩
    · simp only [applyFrame, sortRow, hsome, hsome2]
    · intro ri r outRow hr houtr j hj
      cases ri with
      | zero =>
        simp only [List.get?_cons_zero, Option.some_inj] at hr houtr
        subst hr
        subst houtr
        exact hpres j (fun sn hsn => by simpa using hj sn hsn)
      | succ ri' =>
        simp only [List.get?_cons_succ] at hr houtr
        exact hpres2 ri' r outRow hr houtr j hj

/-- C10.  One pixel-sort apply call leaves every pixel slot outside the
emitted runs byte-for-byte unchanged (all four channels, since slots are
whole `Pixel` values), and with `threshold ≥ 1` no pixel qualifies and the
frame is returned entirely unchanged. -/
theorem apply_untouched_outside_runs (t : ℚ) (cap : ℕ) (clock : ℕ → ℚ)
    (frame : List (List Pixel)) (k : ℕ) (hcap : 0 < cap) :
    ∃ outs k', applyFrame t cap clock frame k = some (outs, k') ∧
      outs.length = frame.length ∧
      (∀ ri row outRow, frame.get? ri = some row → outs.get? ri = some outRow →
        rowRuns t cap row = some (specRuns t cap 0 row) ∧
        ∀ j, (∀ sn ∈ specRuns t cap 0 row, j < sn.1 ∨ sn.1 + sn.2 ≤ j) →
          outRow.get? j = row.get? j) ∧
      (1 ≤ t → (∀ row ∈ frame, ∀ p ∈ row, p.r ≤ 255 ∧ p.g ≤ 255 ∧ p.b ≤ 255) →
        applyFrame t cap clock frame k = some (frame, k)) := by
  obtain ⟨outs, k', hsome, hlen, hpres⟩ := applyFrame_master t cap hcap clock frame k
  refine ⟨outs, k', hsome, hlen, ?_, ?_⟩
  · intro ri row outRow hr houtr
    exact ⟨rowRunsAux_spec t cap hcap row.length row (row.length + 1) 0 le_rfl
      (by omega), hpres ri row outRow hr houtr⟩
  · intro ht hbounds
    exact applyFrame_unqual t cap clock frame k fun row hrow p hp =>
      not_qualifies_ge_one t p ht (hbounds row hrow p hp).1
        (hbounds row hrow p hp).2.1 (hbounds row hrow p hp).2.2

/-- C10 witness: the theorem at a concrete one-row frame. -/
theorem apply_untouched_outside_runs_witness :
    ∃ outs k', applyFrame (3 / 10) 80 (fun _ => 0)
        [[⟨255, 255, 255, 255⟩, ⟨10, 10, 10, 255⟩]] 5 = some (outs, k') ∧
      outs.length = ([[(⟨255, 255, 255, 255⟩ : Pixel), ⟨10, 10, 10, 255⟩]] :
        List (List Pixel)).length ∧
      (∀ ri row outRow,
        ([[(⟨255, 255, 255, 255⟩ : Pixel), ⟨10, 10, 10, 255⟩]] :
          List (List Pixel)).get? ri = some row →
        outs.get? ri = some outRow →
        rowRuns (3 / 10) 80 row = some (specRuns (3 / 10) 80 0 row) ∧
        ∀ j, (∀ sn ∈ specRuns (3 / 10) 80 0 row, j < sn.1 ∨ sn.1 + sn.2 ≤ j) →
          outRow.get? j = row.get? j) ∧
      ((1 : ℚ) ≤ 3 / 10 →
        (∀ row ∈ ([[(⟨255, 255, 255, 255⟩ : Pixel), ⟨10, 10, 10, 255⟩]] :
          List (List Pixel)), ∀ p ∈ row, p.r ≤ 255 ∧ p.g ≤ 255 ∧ p.b ≤ 255) →
        applyFrame (3 / 10) 80 (fun _ => 0)
          [[⟨255, 255, 255, 255⟩, ⟨10, 10, 10, 255⟩]] 5 =
          some ([[⟨255, 255, 255, 255⟩, ⟨10, 10, 10, 255⟩]], 5)) :=
  apply_untouched_outside_runs (3 / 10) 80 (fun _ => 0)
    [[⟨255, 255, 255, 255⟩, ⟨10, 10, 10, 255⟩]] 5 (by decide)

lemma sortRowAux_clock (t : ℚ) (cap : ℕ) (c c' : ℕ → ℚ) :
    ∀ (fuel k : ℕ) (l : List Pixel) (out : List Pixel) (k' : ℕ),
      sortRowAux t cap c fuel k l = some (out, k') →
      k ≤ k' ∧ ((∀ j, k ≤ j → j < k' → c j = c' j) →
        sortRowAux t cap c' fuel k l = some (out, k')) := by
  intro fuel
  induction fuel with
  | zero => intro k l out k' h; exact absurd h (by simp [sortRowAux])
  | succ m ih =>
    intro k l out k' h
    cases l with
    | nil =>
      simp only [sortRowAux, Option.some.injEq, Prod.mk.injEq] at h
      obtain ⟨rfl, rfl⟩ := h
      exact ⟨le_rfl, fun _ => rfl⟩
    | cons p ps =>
      by_cases hq : qualifies t p
      · have hstep : sortRowAux t cap c (m + 1) k (p :: ps) =
            match sortRowAux t cap c m (k + 1)
                ((p :: ps).drop (capRunLen t cap (p :: ps))) with
            | none => none
            | some (rest, k') =>
              some (processRun cap (c k)
                ((p :: ps).take (capRunLen t cap (p :: ps))) ++ rest, k') := by
          simp only [sortRowAux, if_pos hq]
        rw [hstep] at h
        cases hrec : sortRowAux t cap c m (k + 1)
            ((p :: ps).drop (capRunLen t cap (p :: ps))) with
        | none => rw [hrec] at h; exact absurd h (by simp)
        | some v =>
          obtain ⟨rest, k''⟩ := v
          rw [hrec] at h
          simp only [Option.some.injEq, Prod.mk.injEq] at h
          obtain ⟨rfl, rfl⟩ := h
          obtain ⟨hk, hagree⟩ := ih (k + 1) _ rest k'' hrec
          refine ⟨by omega, ?_⟩
          intro hag
          have hck : c k = c' k := hag k le_rfl (by omega)
          have hstep' : sortRowAux t cap c' (m + 1) k (p :: ps) =
              match sortRowAux t cap c' m (k + 1)
                  ((p :: ps).drop (capRunLen t cap (p :: ps))) with
              | none => none
              | some (rest, k') =>
                some (processRun cap (c' k)
                  ((p :: ps).take (capRunLen t cap (p :: ps))) ++ rest, k') := by
            simp only [sortRowAux, if_pos hq]
          rw [hstep', hagree (fun j hj1 hj2 => hag j (by omega) hj2), ← hck]
      · have hstep : sortRowAux t cap c (m + 1) k (p :: ps) =
            match sortRowAux t cap c m k ps with
            | none => none
            | some (rest, k') => some (p :: rest, k') := by
          simp only [sortRowAux, if_neg hq]
        rw [hstep] at h
        cases hrec : sortRowAux t cap c m k ps with
        | none => rw [hrec] at h; exact absurd h (by simp)
        | some v =>
          obtain ⟨rest, k''⟩ := v
          rw [hrec] at h
          simp only [Option.some.injEq, Prod.mk.injEq] at h
          obtain ⟨rfl, rfl⟩ := h
          obtain ⟨hk, hagree⟩ := ih k ps rest k'' hrec
          refine ⟨hk, ?_⟩
          intro hag
          have hstep' : sortRowAux t cap c' (m + 1) k (p :: ps) =
              match sortRowAux t cap c' m k ps with
              | none => none
              | some (rest, k') => some (p :: rest, k') := by
            simp only [sortRowAux, if_neg hq]
          rw [hstep', hagree hag]

lemma applyFrame_clock (t : ℚ) (cap : ℕ) (c c' : ℕ → ℚ) :
    ∀ (frame : List (List Pixel)) (k : ℕ) (out : List (List Pixel)) (k' : ℕ),
      applyFrame t cap c frame k = some (out, k') →
      k ≤ k' ∧ ((∀ j, k ≤ j → j < k' → c j = c' j) →
        applyFrame t cap c' frame k = some (out, k')) := by
  intro frame
  induction frame with
  | nil =>
    intro k out k' h
    simp only [applyFrame, Option.some.injEq, Prod.mk.injEq] at h
    obtain ⟨rfl, rfl⟩ := h
    exact ⟨le_rfl, fun _ => rfl⟩
  | cons row rows ih =>
    intro k out k' h
    simp only [applyFrame] at h
    cases hrow : sortRow t cap c k row with
    | none => rw [hrow] at h; exact absurd h (by simp)
    | some v =>
      obtain ⟨outRow, k1⟩ := v
      rw [hrow] at h
      dsimp only at h
      cases hrest : applyFrame t cap c rows k1 with
      | none => rw [hrest] at h; exact absurd h (by simp)
      | some w =>
        obtain ⟨outs, k2⟩ := w
        rw [hrest] at h
        simp only [Option.some.injEq, Prod.mk.injEq] at h
        obtain ⟨rfl, rfl⟩ := h
        obtain ⟨hk1, hrow'⟩ := sortRowAux_clock t cap c c' (row.length + 1) k row
          outRow k1 hrow
        obtain ⟨hk2, hrest'⟩ := ih k1 outs k2 hrest
        refine ⟨by omega, ?_⟩
        intro hag
        simp only [applyFrame, sortRow]
        rw [show sortRowAux t cap c' (row.length + 1) k row = some (outRow, k1) from
          hrow' fun j hj1 hj2 => hag j hj1 (by omega)]
        dsimp only
        rw [hrest' fun j hj1 hj2 => hag j (by omega) hj2]

/-- C4 amended: `Date.now()` is sampled once per detected run, not once per
frame — the output of one apply call depends on the clock stream exactly
through the per-run samples it consumes (indices `k..k'-1`), so any clock
agreeing on those indices produces the identical frame. -/
theorem time_sampled_per_run (t : ℚ) (cap : ℕ) (c c' : ℕ → ℚ)
    (frame out : List (List Pixel)) (k' : ℕ)
    (happ : applyFrame t cap c frame 0 = some (out, k'))
    (hagree : ∀ j, j < k' → c j = c' j) :
    applyFrame t cap c' frame 0 = some (out, k') :=
  (applyFrame_clock t cap c c' frame 0 out k' happ).2
    fun j _ hj2 => hagree j hj2

lemma qual_red : qualifies (3 / 10) ⟨255, 0, 0, 255⟩ = true := by
  simp only [qualifies, brightness, Bool.and_eq_true, decide_eq_true_eq]
  norm_num

lemma recolor_red_t0 : recolorPixel 80 1 0 0 ⟨255, 0, 0, 255⟩ = ⟨255, 0, 0, 255⟩ := by
  norm_num [recolorPixel, jsMod1, rgbToHsl, hslToRgb, hue2rgb, Int.fract,
    max_def, min_def]
  decide

lemma recolor_red_t1 : recolorPixel 80 1 0 1 ⟨255, 0, 0, 255⟩ = ⟨204, 255, 0, 255⟩ := by
  norm_num [recolorPixel, jsMod1, rgbToHsl, hslToRgb, hue2rgb, Int.fract,
    max_def, min_def]
  decide

lemma processRun_singleton (cap : ℕ) (time : ℚ) (p : Pixel) :
    processRun cap time [p] = [recolorPixel cap 1 0 time p] := by
  simp [processRun, sortRun, List.insertionSort, List.orderedInsert, List.enum,
    List.enumFrom]

lemma capRunLen_red : capRunLen (3 / 10) 80 [⟨255, 0, 0, 255⟩] = 1 := by
  rw [capRunLen_eq, qualLen_cons_pos (3 / 10) ⟨255, 0, 0, 255⟩ [] qual_red]
  rfl

lemma sortRow_red (clock : ℕ → ℚ) (k : ℕ) :
    sortRow (3 / 10) 80 clock k [⟨255, 0, 0, 255⟩] =
      some ([recolorPixel 80 1 0 (clock k) ⟨255, 0, 0, 255⟩], k + 1) := by
  unfold sortRow
  rw [show ([(⟨255, 0, 0, 255⟩ : Pixel)] : List Pixel).length + 1 = 1 + 1 from rfl]
  simp only [sortRowAux, qual_red, if_true, capRunLen_red, List.take_succ_cons,
    List.take_zero, List.drop_succ_cons, List.drop_zero]
  simp [processRun_singleton]

lemma applyFrame_redred (c : ℕ → ℚ) :
    applyFrame (3 / 10) 80 c [[⟨255, 0, 0, 255⟩], [⟨255, 0, 0, 255⟩]] 0 =
      some ([[recolorPixel 80 1 0 (c 0) ⟨255, 0, 0, 255⟩],
        [recolorPixel 80 1 0 (c 1) ⟨255, 0, 0, 255⟩]], 2) := by
  have h1 := sortRow_red c 0
  have h2 := sortRow_red c 1
  simp only [applyFrame, h1, h2]

/-- C4 counterexample: the frame's recolor output depends on clock samples
beyond the first — with two runs (two rows of one qualifying red pixel each),
the clock `k ↦ k` and the constant clock frozen at its first sample produce
different frames, so `Date.now()` is not sampled exactly once per apply
call. -/
theorem time_not_sampled_once_per_frame :
    applyFrame (3 / 10) 80 (fun k => (k : ℚ))
        [[⟨255, 0, 0, 255⟩], [⟨255, 0, 0, 255⟩]] 0 ≠
      applyFrame (3 / 10) 80 (fun _ => ((0 : ℕ) : ℚ))
        [[⟨255, 0, 0, 255⟩], [⟨255, 0, 0, 255⟩]] 0 := by
  rw [applyFrame_redred, applyFrame_redred]
  simp only [Nat.cast_zero, Nat.cast_one]
  rw [recolor_red_t0, recolor_red_t1]
  decide

/-- C4 amended witness: the per-run sampling theorem applied to a two-run
frame, replacing the clock beyond the two consumed samples. -/
theorem time_sampled_per_run_witness :
    applyFrame (3 / 10) 80 (fun j => if j < 2 then (j : ℚ) else 99)
        [[⟨255, 0, 0, 255⟩], [⟨255, 0, 0, 255⟩]] 0 =
      some ([[⟨255, 0, 0, 255⟩], [⟨204, 255, 0, 255⟩]], 2) := by
  have happ : applyFrame (3 / 10) 80 (fun k => (k : ℚ))
      [[⟨255, 0, 0, 255⟩], [⟨255, 0, 0, 255⟩]] 0 =
      some ([[⟨255, 0, 0, 255⟩], [⟨204, 255, 0, 255⟩]], 2) := by
    rw [applyFrame_redred]
    simp only [Nat.cast_zero, Nat.cast_one]
    rw [recolor_red_t0, recolor_red_t1]
  exact time_sampled_per_run (3 / 10) 80 (fun k => (k : ℚ))
    (fun j => if j < 2 then (j : ℚ) else 99)
    [[⟨255, 0, 0, 255⟩], [⟨255, 0, 0, 255⟩]]
    [[⟨255, 0, 0, 255⟩], [⟨204, 255, 0, 255⟩]] 2 happ
    (fun j hj => by simp [hj])
